import Mathlib

/-!
# Verification of the yq binary lifecycle manager

A shallow embedding, in Lean 4, of the provisioning logic of
`packages/mcp_json_yaml_toml/backends/binary_manager.py`: version parsing and
comparison, checksum table selection, the locked download-and-verify critical
section, stale-version cleanup, system-binary probing and the overall binary
path resolution.  External effects (the network, the process table, hashing)
are modelled as oracles passed in explicitly; the file system of the storage
directory is an association list from file names to abstract contents.
-/

namespace BinaryManager

/-- Python exception kinds that the embedded fragments can raise. -/
inductive PyError
  | valueError
  | indexError
deriving DecidableEq, Repr

/-- The character set of Python `str.isspace` (and of `\s` in `re` patterns on
`str`, both implemented by `Py_UNICODE_ISSPACE`): ASCII whitespace, the C0
file/group/record/unit separators, and the Unicode `White_Space` characters. -/
def pyIsSpace (c : Char) : Bool :=
  ([' ', '\t', '\n', '\r', '\x0b', '\x0c',
    '\x1c', '\x1d', '\x1e', '\x1f', '\x85', '\xa0',
    ' ', ' ', ' ', ' ', ' ', ' ', ' ',
    ' ', ' ', ' ', ' ', ' ',
    ' ', ' ', ' ', ' ', '　'] : List Char).contains c

/-- Python `str.strip()` with no argument: remove leading and trailing
whitespace characters. -/
def pyStrip (s : String) : String :=
  String.mk (((s.data.dropWhile pyIsSpace).reverse.dropWhile pyIsSpace).reverse)

/-- Python `str.split(sep)` for a one-character separator `sep`: split at every
occurrence of the separator, keeping empty segments, so the empty string splits
into one empty segment. -/
def splitOnChar (sep : Char) : List Char → List (List Char)
  | [] => [[]]
  | c :: cs =>
    let r := splitOnChar sep cs
    if c = sep then [] :: r
    else
      match r with
      | [] => [[c]]
      | g :: gs => (c :: g) :: gs

/-- The decimal value Python `int()` assigns to a character, if any.  The model
covers the ASCII digits; non-ASCII decimal digits (other `Nd` characters) are
outside the modelled character repertoire. -/
def pyDecimalVal (c : Char) : Option Nat :=
  if '0' ≤ c ∧ c ≤ '9' then some (c.toNat - '0'.toNat) else none

/-- Python `str.isdigit` on a single character.  A character counts as a digit
when it has a decimal value or when its Unicode `Numeric_Type` is `Digit`; the
model covers the ASCII digits exactly and, among the latter class, the Latin-1
superscript digits, which `int()` rejects. -/
def pyIsDigitChar (c : Char) : Bool :=
  (pyDecimalVal c).isSome || c == '¹' || c == '²' || c == '³'

/-- Python `str.isdigit()`: nonempty and every character is a digit. -/
def pyIsdigitStr (l : List Char) : Bool :=
  !l.isEmpty && l.all pyIsDigitChar

/-- Python `int(s)` on a string of digit characters: succeeds exactly when
every character has a decimal value, and raises `ValueError` otherwise (for
instance on the superscript digits, which satisfy `isdigit`). -/
def pyInt (l : List Char) : Except PyError Nat :=
  if l.isEmpty then .error .valueError
  else if l.all (fun c => (pyDecimalVal c).isSome) then
    .ok (l.foldl (fun a c => 10 * a + ((pyDecimalVal c).getD 0)) 0)
  else .error .valueError

/-- Python `part.split("-")[0]`: the characters before the first hyphen (the
whole string when there is no hyphen). -/
def beforeHyphen (l : List Char) : List Char :=
  l.takeWhile (fun c => c != '-')

/-- The segment loop of `_parse_version`: for each dot-separated segment, take
the part before the first hyphen; if it satisfies `isdigit`, convert it with
`int()` (which may raise) and append it, otherwise drop the segment. -/
def parseSegments : List (List Char) → Except PyError (List Nat)
  | [] => .ok []
  | part :: rest =>
    let num := beforeHyphen part
    if pyIsdigitStr num then
      match pyInt num with
      | .error e => .error e
      | .ok n =>
        match parseSegments rest with
        | .error e => .error e
        | .ok ns => .ok (n :: ns)
    else parseSegments rest

/-- `_parse_version`: strip all leading `v` characters, split on dots, and
collect the numeric segments. -/
def _parse_version (version_str : String) : Except PyError (List Nat) :=
  parseSegments (splitOnChar '.' (version_str.data.dropWhile (fun c => c == 'v')))

/-- Python `>=` on tuples of integers: compare elementwise at the first
difference; a proper prefix is smaller than the longer tuple. -/
def pyTupleGE : List Nat → List Nat → Bool
  | [], [] => true
  | [], _ :: _ => false
  | _ :: _, [] => true
  | a :: as, b :: bs => if a = b then pyTupleGE as bs else decide (b < a)

/-- `_version_meets_minimum`: parse both versions (any `ValueError` or
`IndexError` from parsing yields `False`) and compare the tuples with `>=`. -/
def _version_meets_minimum (system_version minimum_version : String) : Bool :=
  match _parse_version system_version, _parse_version minimum_version with
  | .ok s, .ok m => pyTupleGE s m
  | _, _ => false

/-- Python pathlib `PurePath.suffix` of a file name: the part of the name from
the last dot on, provided that dot is neither the first nor the last character;
otherwise the empty suffix. -/
def pySuffix (l : List Char) : List Char :=
  let tail := (l.reverse.takeWhile (fun c => c != '.')).reverse
  if tail.length = l.length ∨ tail.length = 0 ∨ l.length - tail.length - 1 = 0 then []
  else '.' :: tail

/-- Python pathlib `PurePath.with_suffix` on a file name: replace the existing
suffix when there is one, append the new suffix otherwise. -/
def pyWithSuffix (l : List Char) (suffix : List Char) : List Char :=
  let old := pySuffix l
  if old.length = 0 then l ++ suffix
  else l.take (l.length - old.length) ++ suffix

/-- The lock file name used by `_download_yq_binary`:
`dest_path.with_suffix(".lock")`. -/
def lockFileName (destName : String) : String :=
  String.mk (pyWithSuffix destName.data ".lock".data)

/-- The temporary file name used by `_download_yq_binary`:
`dest_path.with_suffix(".tmp." + uuid4().hex[:8])`, with the random token
supplied as an oracle. -/
def tempFileName (destName hex : String) : String :=
  String.mk (pyWithSuffix destName.data (".tmp." ++ hex).data)

/-- GitHub repository for yq. -/
def GITHUB_REPO : String := "mikefarah/yq"

/-- Minimum fields in a checksum manifest line. -/
def CHECKSUM_MIN_FIELDS : Nat := 19

/-- SHA-256 hash position in a checksum manifest line (0-indexed). -/
def CHECKSUM_SHA256_INDEX : Nat := 18

/-- Default yq version, pinned for reproducibility. -/
def DEFAULT_YQ_VERSION : String := "v4.52.2"

/-- Bundled SHA256 checksums for the default version. -/
def DEFAULT_YQ_CHECKSUMS : List (String × String) :=
  [("yq_darwin_amd64", "54a63555210e73abed09108097072e28bf82a6bb20439a72b55509c4dd42378d"),
   ("yq_darwin_arm64", "34613ea97c4c77e1894a8978dbf72588d187a69a6292c10dab396c767a1ecde7"),
   ("yq_linux_amd64", "a74bd266990339e0c48a2103534aef692abf99f19390d12c2b0ce6830385c459"),
   ("yq_linux_arm64", "c82856ac30da522f50dcdd4f53065487b5a2927e9b87ff637956900986f1f7c2"),
   ("yq_windows_amd64.exe", "2b6cd8974004fa0511f6b6b359d2698214fadeb4599f0b00e8d85ae62b3922d4")]

/-- `get_yq_version`, with the value of the `YQ_VERSION` environment variable
passed explicitly: a nonempty stripped value is used (prefixing `v` when
missing), otherwise the pinned default. -/
def get_yq_version (yqVersionEnv : String) : String :=
  let version := pyStrip yqVersionEnv
  if version ≠ "" then
    if ¬ version.startsWith "v" then "v" ++ version else version
  else DEFAULT_YQ_VERSION

/-- Failures raised as `YQError` by the download helpers. -/
inductive YQErr
  | httpStatus
  | network
  | noChecksum
  | checksumMismatch
deriving DecidableEq, Repr

/-- The two failure modes of one HTTP transfer in `_download_file` and
`_fetch_checksums_from_github`: a bad status code (`HTTPStatusError`) or a
transport error (`RequestError`). -/
inductive NetFail
  | httpStatus
  | network
deriving DecidableEq, Repr

/-- The `YQError` each transfer failure is re-raised as. -/
def NetFail.toYQErr : NetFail → YQErr
  | .httpStatus => .httpStatus
  | .network => .network

/-- Python `str.split()` with no argument: split on runs of whitespace,
discarding empty segments. -/
def splitWS (l : List Char) : List (List Char) :=
  match l with
  | [] => []
  | c :: cs =>
    if pyIsSpace c then splitWS cs
    else (c :: cs.takeWhile (fun x => !pyIsSpace x)) :: splitWS (cs.dropWhile (fun x => !pyIsSpace x))
termination_by l.length
decreasing_by
  all_goals simp only [List.length_cons]
  · omega
  · have h := (List.dropWhile_sublist (p := fun x => !pyIsSpace x) (l := cs)).length_le
    omega

/-- Python dict assignment `d[k] = v` on an association list: overwrite the
existing entry in place, or append a new one. -/
def dictInsert (d : List (String × String)) (k v : String) : List (String × String) :=
  if (List.lookup k d).isSome then d.map (fun e => if e.1 = k then (k, v) else e)
  else d ++ [(k, v)]

/-- The manifest parsing loop of `_fetch_checksums_from_github`: strip the
body, split into lines, and for each line with at least `CHECKSUM_MIN_FIELDS`
whitespace-separated fields record field 0 against field
`CHECKSUM_SHA256_INDEX`. -/
def parseChecksumsText (content : String) : List (String × String) :=
  (splitOnChar '\n' (pyStrip content).data).foldl
    (fun d line =>
      let parts := splitWS line
      if CHECKSUM_MIN_FIELDS ≤ parts.length then
        dictInsert d (String.mk (parts.getD 0 [])) (String.mk (parts.getD CHECKSUM_SHA256_INDEX []))
      else d) []

/-- `_fetch_checksums_from_github`, with the network reply supplied as an
oracle (`Except.error` for an HTTP-status or transport failure). -/
def _fetch_checksums_from_github (fetchManifest : Except NetFail String) :
    Except YQErr (List (String × String)) :=
  match fetchManifest with
  | .error e => .error e.toYQErr
  | .ok content => .ok (parseChecksumsText content)

/-- `_get_checksums`, paired with the number of network manifest fetches it
performs: the pinned default version uses the bundled table with zero fetches;
any other version fetches the manifest from GitHub. -/
def _get_checksums (version : String) (fetchManifest : Except NetFail String) :
    Except YQErr (List (String × String)) × Nat :=
  if version = DEFAULT_YQ_VERSION then (.ok DEFAULT_YQ_CHECKSUMS, 0)
  else (_fetch_checksums_from_github fetchManifest, 1)

section FileSystem

variable {C : Type}

/-- Write a file: overwrite the entry in place, or append a new one. -/
def fsInsert (fs : List (String × C)) (n : String) (c : C) : List (String × C) :=
  if (List.lookup n fs).isSome then fs.map (fun e => if e.1 = n then (n, c) else e)
  else fs ++ [(n, c)]

/-- Delete a file. -/
def fsRemove (fs : List (String × C)) (n : String) : List (String × C) :=
  fs.filter (fun e => e.1 != n)

/-- `Path.rename`: move the contents of `old` to `target` (overwriting it). -/
def fsRename (fs : List (String × C)) (old target : String) : List (String × C) :=
  match List.lookup old fs with
  | some c => fsInsert (fsRemove fs old) target c
  | none => fs

/-- `_cleanup_old_versions`: iterate over the storage directory; every file
matching the glob `platform_prefix-v*` other than `current` is unlinked,
best-effort — a failed unlink (oracle `unlinkOK`) keeps the file and moves on. -/
def _cleanup_old_versions (fs : List (String × C)) (platPfx current : String)
    (unlinkOK : String → Bool) : List (String × C) :=
  match fs with
  | [] => []
  | e :: rest =>
    if (platPfx ++ "-v").isPrefixOf e.1 && e.1 != current then
      if unlinkOK e.1 then _cleanup_old_versions rest platPfx current unlinkOK
      else e :: _cleanup_old_versions rest platPfx current unlinkOK
    else e :: _cleanup_old_versions rest platPfx current unlinkOK

/-- Oracles for one `_download_yq_binary` invocation: whether another process
created the destination while this one waited on the lock (`appeared`), the
content portalocker leaves in the lock file, the random temp-name token, the
network replies, and which unlink calls succeed. -/
structure DlOracle (C : Type) where
  appeared : Option C
  lockContent : C
  tempHex : String
  fetchManifest : Except NetFail String
  downloadOutcome : Except NetFail C
  unlinkOK : String → Bool

/-- Result of one `_download_yq_binary` invocation: the Python return or raise,
the final storage directory, and effect counters (calls to `_get_checksums`,
network manifest fetches, network binary transfers). -/
structure DlOut (C : Type) where
  result : Except YQErr Unit
  fs : List (String × C)
  checksumCalls : Nat
  manifestFetches : Nat
  binaryDownloads : Nat

/-- The `finally` block of `_download_yq_binary`:
`with contextlib.suppress(OSError): if temp_path.exists(): temp_path.unlink()`.
The unlink is attempted only when the temp file exists, and a raised `OSError`
is suppressed, leaving the file behind — so removal happens exactly when the
file exists and its unlink succeeds (oracle `unlinkOK`). -/
def fsFinallyTemp (unlinkOK : String → Bool) (temp : String)
    (fs : List (String × C)) : List (String × C) :=
  if (List.lookup temp fs).isSome && unlinkOK temp then fsRemove fs temp else fs

/-- The storage directory as seen right after `portalocker.Lock` has been
acquired: the lock file exists (created by portalocker when absent), and the
destination may have been written by another process while this one waited
(oracle `appeared`). -/
def fsAfterLock (lockContent : C) (appeared : Option C) (destName : String)
    (fs : List (String × C)) : List (String × C) :=
  let lockN := lockFileName destName
  let fs₁ := if (List.lookup lockN fs).isSome then fs else fs ++ [(lockN, lockContent)]
  match appeared with
  | some c => fsInsert fs₁ destName c
  | none => fs₁

/-- `_download_yq_binary`: unlocked fast existence check; lock acquisition
(during which the destination may appear); re-check under the lock; checksum
table lookup; download to a uniquely-suffixed temp file; SHA-256 verification
(a mismatch raises); the `finally` block's best-effort temp unlink
(`fsFinallyTemp`, which runs on every path that entered the `try` block:
network failure of the transfer, checksum mismatch, and success — where the
atomic rename has already consumed the temp file); stale-version cleanup; and
best-effort lock file unlink (reached only on the successful-download path,
since the re-check path returns from inside the `with` block and an exception
skips it). -/
def _download_yq_binary (sha256hex : C → String)
    (binary_name github_name destName version platPfx : String)
    (o : DlOracle C) (fs : List (String × C)) : DlOut C :=
  if (List.lookup destName fs).isSome then ⟨.ok (), fs, 0, 0, 0⟩
  else
    let lockN := lockFileName destName
    let fs₂ := fsAfterLock o.lockContent o.appeared destName fs
    if (List.lookup destName fs₂).isSome then ⟨.ok (), fs₂, 0, 0, 0⟩
    else
      let cks := _get_checksums version o.fetchManifest
      match cks.1 with
      | .error e => ⟨.error e, fs₂, 1, cks.2, 0⟩
      | .ok checksums =>
        match List.lookup github_name checksums with
        | none => ⟨.error .noChecksum, fs₂, 1, cks.2, 0⟩
        | some expected =>
          let temp := tempFileName destName o.tempHex
          match o.downloadOutcome with
          | .error e => ⟨.error e.toYQErr, fsFinallyTemp o.unlinkOK temp fs₂, 1, cks.2, 1⟩
          | .ok content =>
            let fs₃ := fsInsert fs₂ temp content
            if sha256hex content != expected then
              ⟨.error .checksumMismatch, fsFinallyTemp o.unlinkOK temp fs₃, 1, cks.2, 1⟩
            else
              let fs₄ := fsRename fs₃ temp destName
              let fs₅ := _cleanup_old_versions fs₄ platPfx binary_name o.unlinkOK
              let fs₅f := fsFinallyTemp o.unlinkOK temp fs₅
              let fs₆ := if o.unlinkOK lockN then fsRemove fs₅f lockN else fs₅f
              ⟨.ok (), fs₆, 1, cks.2, 1⟩

end FileSystem

/-- Outcome of the `subprocess.run([yq, "--version"], timeout=5)` probe:
`launchFailure` covers `OSError`, `TimeoutExpired` and `SubprocessError`
(all caught), otherwise the exit code and decoded stdout. -/
inductive ProbeResult
  | launchFailure
  | completed (returncode : Int) (stdout : String)
deriving DecidableEq, Repr

/-- Substring test, as Python `needle in hay`. -/
def listContainsSub (needle : List Char) : List Char → Bool
  | [] => needle.isEmpty
  | c :: cs => needle.isPrefixOf (c :: cs) || listContainsSub needle cs

/-- One anchored attempt of the pattern `version\s+(v[\d.]+)`: the literal
`version`, one or more whitespace characters, then the capture group `v`
followed by a maximal nonempty run of digits and dots. -/
def reTryAt (l : List Char) : Option (List Char) :=
  if "version".data.isPrefixOf l then
    let rest := l.drop "version".data.length
    let rest₂ := rest.dropWhile pyIsSpace
    if rest₂.length = rest.length then none
    else
      match rest₂ with
      | 'v' :: tail =>
        let ds := tail.takeWhile (fun c => c.isDigit || c == '.')
        if ds.isEmpty then none else some ('v' :: ds)
      | _ => none
  else none

/-- `re.search` of the pattern `version\s+(v[\d.]+)`: the capture group of the
leftmost match, if any. -/
def reFindVersion : List Char → Option (List Char)
  | [] => none
  | c :: cs =>
    match reTryAt (c :: cs) with
    | some r => some r
    | none => reFindVersion cs

/-- `_get_yq_version_string`: `None` on launch failure or nonzero exit; `None`
when the output lacks the `mikefarah/yq` fingerprint; otherwise the version
extracted by the regex search (or `None` when it does not match). -/
def _get_yq_version_string (probe : ProbeResult) : Option String :=
  match probe with
  | .launchFailure => none
  | .completed rc out =>
    if rc != 0 then none
    else if !listContainsSub "mikefarah/yq".data out.data then none
    else
      match reFindVersion out.data with
      | some v => some (String.mk v)
      | none => none

/-- `_is_mikefarah_yq`. -/
def _is_mikefarah_yq (probe : ProbeResult) : Bool :=
  (_get_yq_version_string probe).isSome

/-- `_find_system_yq`, with `shutil.which("yq")` and the version probe passed
as oracles: a path is returned only when the probe identifies mikefarah/yq and
its version meets the pinned minimum. -/
def _find_system_yq (whichYq : Option String) (probe : ProbeResult)
    (yqVersionEnv : String) : Option String :=
  match whichYq with
  | none => none
  | some p =>
    match _get_yq_version_string probe with
    | none => none
    | some system_version =>
      let pinned_version := get_yq_version yqVersionEnv
      if _version_meets_minimum system_version pinned_version then some p else none

/-- The `YQBinaryNotFoundError` variants raised during resolution. -/
inductive ResolveError
  | overridePathMissing
  | unsupportedOS
  | unsupportedArch
  | downloadMissing
  | autoDownloadFailed (e : YQErr)
deriving DecidableEq, Repr

/-- `_get_platform_binary_info`: platform-specific naming, raising
`YQBinaryNotFoundError` for an unsupported operating system. -/
def _get_platform_binary_info (system arch version : String) :
    Except ResolveError (String × String × String) :=
  if system = "linux" then
    .ok ("yq-linux-" ++ arch, "yq-linux-" ++ arch ++ "-" ++ version, "yq_linux_" ++ arch)
  else if system = "darwin" then
    .ok ("yq-darwin-" ++ arch, "yq-darwin-" ++ arch ++ "-" ++ version, "yq_darwin_" ++ arch)
  else if system = "windows" then
    .ok ("yq-windows-" ++ arch, "yq-windows-" ++ arch ++ "-" ++ version ++ ".exe",
      "yq_windows_" ++ arch ++ ".exe")
  else .error .unsupportedOS

/-- The environment and process oracles consulted by `get_yq_binary_path`:
environment variables, `platform.system()`/`platform.machine()`, path
expansion and file tests for the override path, the storage directory chosen
by `_get_storage_location`, and the system-PATH probe. -/
structure ResolveEnv where
  yqBinaryPath : String
  yqVersionEnv : String
  system : String
  machine : String
  expanduser : String → String
  pathExists : String → Bool
  pathIsFile : String → Bool
  storageDir : String
  whichYq : Option String
  probe : ProbeResult

/-- Observable resolution stages after the override check. -/
inductive RStep
  | cacheCheck
  | systemPathLookup
  | downloadAttempt
deriving DecidableEq, Repr

/-- Result of `get_yq_binary_path`: the returned path or raised error, the
stages consulted, the storage directory afterwards, and the effect counters of
any download. -/
structure ROut (C : Type) where
  result : Except ResolveError String
  events : List RStep
  fs : List (String × C)
  checksumCalls : Nat
  manifestFetches : Nat
  binaryDownloads : Nat

/-- `get_yq_binary_path`: explicit `YQ_BINARY_PATH` override (which must exist
and be a regular file, or resolution fails immediately); then the cached
versioned binary in the storage directory; then the system PATH; then the
auto-download, re-checking that the binary exists afterwards and wrapping any
`YQError` in a `YQBinaryNotFoundError`. -/
def get_yq_binary_path {C : Type} (sha256hex : C → String) (env : ResolveEnv)
    (o : DlOracle C) (fs : List (String × C)) : ROut C :=
  let custom_path := pyStrip env.yqBinaryPath
  if custom_path ≠ "" then
    let custom_binary := env.expanduser custom_path
    if env.pathExists custom_binary && env.pathIsFile custom_binary then
      ⟨.ok custom_binary, [], fs, 0, 0, 0⟩
    else ⟨.error .overridePathMissing, [], fs, 0, 0, 0⟩
  else
    let system := env.system.toLower
    let machine := env.machine.toLower
    let archE : Except ResolveError String :=
      if machine = "x86_64" ∨ machine = "amd64" then .ok "amd64"
      else if machine = "arm64" ∨ machine = "aarch64" then .ok "arm64"
      else .error .unsupportedArch
    match archE with
    | .error e => ⟨.error e, [], fs, 0, 0, 0⟩
    | .ok arch =>
      let version := get_yq_version env.yqVersionEnv
      match _get_platform_binary_info system arch version with
      | .error e => ⟨.error e, [], fs, 0, 0, 0⟩
      | .ok (platPfx, binary_name, github_name) =>
        let storage_binary := env.storageDir ++ "/" ++ binary_name
        if (List.lookup binary_name fs).isSome then
          ⟨.ok storage_binary, [.cacheCheck], fs, 0, 0, 0⟩
        else
          match _find_system_yq env.whichYq env.probe env.yqVersionEnv with
          | some p => ⟨.ok p, [.cacheCheck, .systemPathLookup], fs, 0, 0, 0⟩
          | none =>
            let d := _download_yq_binary sha256hex binary_name github_name binary_name
              version platPfx o fs
            match d.result with
            | .ok _ =>
              if (List.lookup binary_name d.fs).isSome then
                ⟨.ok storage_binary, [.cacheCheck, .systemPathLookup, .downloadAttempt],
                  d.fs, d.checksumCalls, d.manifestFetches, d.binaryDownloads⟩
              else
                ⟨.error .downloadMissing, [.cacheCheck, .systemPathLookup, .downloadAttempt],
                  d.fs, d.checksumCalls, d.manifestFetches, d.binaryDownloads⟩
            | .error e =>
              ⟨.error (.autoDownloadFailed e), [.cacheCheck, .systemPathLookup, .downloadAttempt],
                d.fs, d.checksumCalls, d.manifestFetches, d.binaryDownloads⟩

namespace Race

/-!
Interleaving semantics of N independent OS processes running
`_download_yq_binary` for the same `(platform, arch, version)` target against
one shared storage directory, in the claim's scenario: the cache starts empty
and the single download attempt succeeds and verifies.  The portalocker lock is
modelled as one advisory mutex (`holder`); the work done strictly under the
lock between the re-check and the rename (checksum table lookup, network
transfer, verification) is collapsed into the atomic `transfer` step, which is
sound because no other process can observe intermediate states of the critical
section.  Presence of the lock file itself is not part of the state — the
claim's conclusions concern the binary and temp files. -/

/-- Program counter of one process inside `_download_yq_binary`. -/
inductive PC
  | start
  | waiting
  | locked
  | downloaded
  | renamed
  | postlock
  | done
deriving DecidableEq, Repr

/-- One process: its location and whether it has performed the network
transfer. -/
structure Proc where
  pc : PC
  did : Bool
deriving DecidableEq, Repr

/-- Shared configuration: the per-process states, the lock holder, whether the
final binary exists, and which processes currently have a temp file on disk. -/
@[ext]
structure Config (n : Nat) where
  procs : Fin n → Proc
  holder : Option (Fin n)
  dest : Bool
  temp : Fin n → Bool
deriving DecidableEq

/-- The interleaved small-step relation.  Each constructor is one atomic
action of one process `i`. -/
inductive Step {n : Nat} : Config n → Config n → Prop
  | fastPathHit (c : Config n) (i : Fin n) :
      (c.procs i).pc = .start → c.dest = true →
      Step c { c with procs := Function.update c.procs i ⟨.done, (c.procs i).did⟩ }
  | fastPathMiss (c : Config n) (i : Fin n) :
      (c.procs i).pc = .start → c.dest = false →
      Step c { c with procs := Function.update c.procs i ⟨.waiting, (c.procs i).did⟩ }
  | acquire (c : Config n) (i : Fin n) :
      (c.procs i).pc = .waiting → c.holder = none →
      Step c { c with procs := Function.update c.procs i ⟨.locked, (c.procs i).did⟩,
                      holder := some i }
  | recheckHit (c : Config n) (i : Fin n) :
      (c.procs i).pc = .locked → c.holder = some i → c.dest = true →
      Step c { c with procs := Function.update c.procs i ⟨.done, (c.procs i).did⟩,
                      holder := none }
  | transfer (c : Config n) (i : Fin n) :
      (c.procs i).pc = .locked → c.holder = some i → c.dest = false →
      Step c { c with procs := Function.update c.procs i ⟨.downloaded, true⟩,
                      temp := Function.update c.temp i true }
  | rename (c : Config n) (i : Fin n) :
      (c.procs i).pc = .downloaded → c.holder = some i →
      Step c { c with procs := Function.update c.procs i ⟨.renamed, (c.procs i).did⟩,
                      temp := Function.update c.temp i false,
                      dest := true }
  | release (c : Config n) (i : Fin n) :
      (c.procs i).pc = .renamed → c.holder = some i →
      Step c { c with procs := Function.update c.procs i ⟨.postlock, (c.procs i).did⟩,
                      holder := none }
  | unlinkLock (c : Config n) (i : Fin n) :
      (c.procs i).pc = .postlock →
      Step c { c with procs := Function.update c.procs i ⟨.done, (c.procs i).did⟩ }

/-- The initial configuration of a contention episode on an empty cache. -/
def init (n : Nat) : Config n :=
  ⟨fun _ => ⟨.start, false⟩, none, false, fun _ => false⟩

/-- Configurations reachable from the empty-cache initial configuration. -/
def Reachable {n : Nat} (c : Config n) : Prop :=
  Relation.ReflTransGen Step (init n) c

/-- All processes have returned. -/
def Terminal {n : Nat} (c : Config n) : Prop :=
  ∀ i, (c.procs i).pc = .done

/-- Number of processes that performed the network transfer. -/
def transferCount {n : Nat} (c : Config n) : Nat :=
  (Finset.univ.filter fun i => (c.procs i).did = true).card

/-- The inductive invariant of the race machine. -/
structure Inv {n : Nat} (c : Config n) : Prop where
  cs_holder : ∀ i, ((c.procs i).pc = .locked ∨ (c.procs i).pc = .downloaded ∨
      (c.procs i).pc = .renamed) → c.holder = some i
  holder_cs : ∀ i, c.holder = some i → ((c.procs i).pc = .locked ∨
      (c.procs i).pc = .downloaded ∨ (c.procs i).pc = .renamed)
  temp_iff : ∀ i, c.temp i = true ↔ (c.procs i).pc = .downloaded
  did_past : ∀ i, (c.procs i).did = true →
      (c.procs i).pc = .downloaded ∨ (c.procs i).pc = .renamed ∨
      (c.procs i).pc = .postlock ∨ (c.procs i).pc = .done
  cs_did : ∀ i, ((c.procs i).pc = .downloaded ∨ (c.procs i).pc = .renamed ∨
      (c.procs i).pc = .postlock) → (c.procs i).did = true
  dest_iff : c.dest = true ↔ ∃ i, (c.procs i).did = true ∧
      ((c.procs i).pc = .renamed ∨ (c.procs i).pc = .postlock ∨ (c.procs i).pc = .done)
  done_dest : ∀ i, (c.procs i).pc = .done → (c.procs i).did = true ∨ c.dest = true
  did_unique : ∀ i j, (c.procs i).did = true → (c.procs j).did = true → i = j

/-- Terminal configuration of the two-process witness trace: process 0
downloaded and installed the binary, process 1 saw it at the re-check. -/
def raceFinal : Config 2 :=
  ⟨fun i => if i = 0 then ⟨.done, true⟩ else ⟨.done, false⟩, none, true, fun _ => false⟩

end Race

/-! ## Theorems -/

/-- Python tuple `>=` agrees with the negation of the lexicographic strict
order on lists of naturals. -/
theorem pyTupleGE_iff_not_lex (x y : List Nat) :
    pyTupleGE x y = true ↔ ¬ List.Lex (· < ·) x y := by
  induction x generalizing y with
  | nil =>
    cases y with
    | nil =>
      refine ⟨fun _ h => ?_, fun _ => rfl⟩
      cases h
    | cons b bs =>
      constructor
      · intro h
        exact absurd h (by simp [pyTupleGE])
      · intro h
        exact absurd List.Lex.nil h
  | cons a as ih =>
    cases y with
    | nil =>
      refine ⟨fun _ h => ?_, fun _ => rfl⟩
      cases h
    | cons b bs =>
      by_cases hab : a = b
      · subst hab
        rw [show pyTupleGE (a :: as) (a :: bs) = pyTupleGE as bs from by
          simp [pyTupleGE]]
        rw [ih]
        constructor
        · intro h hl
          cases hl with
          | rel hr => exact absurd hr (lt_irrefl a)
          | cons hl => exact h hl
        · intro h hl
          exact h (List.Lex.cons hl)
      · simp only [pyTupleGE, if_neg hab]
        by_cases hba : b < a
        · constructor
          · intro _ hl
            cases hl with
            | rel hr => omega
            | cons _ => exact hab rfl
          · intro _
            exact decide_eq_true hba
        · have hab2 : a < b := by omega
          constructor
          · intro hd
            rw [decide_eq_true_eq] at hd
            exact absurd hd hba
          · intro h
            exact absurd (List.Lex.rel hab2) h

/-- C6: `_version_meets_minimum A B` is `true` exactly when both version
strings parse and the tuple of `A` is lexicographically at least the tuple of
`B` (so a strictly smaller tuple, including a proper prefix, yields `false`);
any parse failure makes the comparison `false` rather than raising. -/
theorem version_meets_minimum_correct (a b : String) :
    _version_meets_minimum a b = true ↔
      ∃ ta tb, _parse_version a = .ok ta ∧ _parse_version b = .ok tb ∧
        ¬ List.Lex (· < ·) ta tb := by
  cases ha : _parse_version a with
  | error e =>
    cases hb : _parse_version b with
    | error f => simp [_version_meets_minimum, ha, hb]
    | ok m => simp [_version_meets_minimum, ha, hb]
  | ok s =>
    cases hb : _parse_version b with
    | error f => simp [_version_meets_minimum, ha, hb]
    | ok m => simp [_version_meets_minimum, ha, hb, pyTupleGE_iff_not_lex]

/-- C10 counterexample: the superscript-two character satisfies Python
`str.isdigit`, so `_parse_version` reaches `int()` on it and raises
`ValueError` — `_parse_version` is not total, and the handler in
`_version_meets_minimum` is reachable (it catches the error and returns
`False`). -/
theorem parse_version_not_total :
    _parse_version "²" = .error .valueError ∧ pyIsdigitStr "²".data = true ∧
    _version_meets_minimum "²" "v1" = false :=
  ⟨rfl, rfl, rfl⟩

/-- On ASCII characters, Python `isdigit` coincides with having a decimal
value. -/
theorem pyIsDigitChar_ascii (c : Char) (hc : c.toNat < 128) :
    pyIsDigitChar c = (pyDecimalVal c).isSome := by
  have h1 : (c == '¹') = false := by
    rw [beq_eq_false_iff_ne]
    intro e
    subst e
    exact absurd hc (by decide)
  have h2 : (c == '²') = false := by
    rw [beq_eq_false_iff_ne]
    intro e
    subst e
    exact absurd hc (by decide)
  have h3 : (c == '³') = false := by
    rw [beq_eq_false_iff_ne]
    intro e
    subst e
    exact absurd hc (by decide)
  simp [pyIsDigitChar, h1, h2, h3]

/-- `int()` succeeds on any nonempty all-`isdigit` string of ASCII
characters. -/
theorem pyInt_ok_of_ascii (l : List Char) (hd : pyIsdigitStr l = true)
    (hc : ∀ c ∈ l, c.toNat < 128) : ∃ n, pyInt l = .ok n := by
  have hne : l.isEmpty = false := by
    cases h : l.isEmpty
    · rfl
    · simp [pyIsdigitStr, h] at hd
  have hall : l.all (fun c => (pyDecimalVal c).isSome) = true := by
    rw [List.all_eq_true]
    intro c hcm
    have := (List.all_eq_true.mp (by simpa [pyIsdigitStr, hne] using hd)) c hcm
    rwa [pyIsDigitChar_ascii c (hc c hcm)] at this
  refine ⟨l.foldl (fun a c => 10 * a + ((pyDecimalVal c).getD 0)) 0, ?_⟩
  simp [pyInt, hne, hall]

/-- Every character of every segment produced by `splitOnChar` occurs in the
input. -/
theorem mem_of_mem_splitOnChar (sep : Char) (l : List Char) :
    ∀ seg ∈ splitOnChar sep l, ∀ c ∈ seg, c ∈ l := by
  induction l with
  | nil =>
    intro seg hs c hc
    simp only [splitOnChar, List.mem_singleton] at hs
    subst hs
    cases hc
  | cons a as ih =>
    intro seg hs c hc
    simp only [splitOnChar] at hs
    by_cases ha : a = sep
    · rw [if_pos ha] at hs
      rcases List.mem_cons.mp hs with h | h
      · subst h
        cases hc
      · exact List.mem_cons_of_mem _ (ih seg h c hc)
    · rw [if_neg ha] at hs
      cases hr : splitOnChar sep as with
      | nil =>
        rw [hr] at hs
        simp only [List.mem_singleton] at hs
        subst hs
        have h := List.mem_singleton.mp hc
        exact List.mem_cons.mpr (Or.inl h)
      | cons g gs =>
        rw [hr] at hs
        rcases List.mem_cons.mp hs with h | h
        · subst h
          rcases List.mem_cons.mp hc with h | h
          · exact List.mem_cons.mpr (Or.inl h)
          · exact List.mem_cons_of_mem _ (ih g (by rw [hr]; exact List.mem_cons_self g gs) c h)
        · exact List.mem_cons_of_mem _ (ih seg (by rw [hr]; exact List.mem_cons_of_mem _ h) c hc)

/-- The segment loop succeeds on segments whose characters are ASCII. -/
theorem parseSegments_ok_of_ascii (segs : List (List Char))
    (h : ∀ seg ∈ segs, ∀ c ∈ seg, c.toNat < 128) :
    ∃ t, parseSegments segs = .ok t := by
  induction segs with
  | nil => exact ⟨[], rfl⟩
  | cons part rest ih =>
    obtain ⟨t, ht⟩ := ih (fun seg hs c hcm => h seg (List.mem_cons_of_mem _ hs) c hcm)
    by_cases hd : pyIsdigitStr (beforeHyphen part) = true
    · have hall : ∀ c ∈ beforeHyphen part, c.toNat < 128 := fun c hcm =>
        h part (List.mem_cons_self _ _) c
          ((List.takeWhile_sublist (p := fun c => c != '-')).subset hcm)
      obtain ⟨n, hn⟩ := pyInt_ok_of_ascii (beforeHyphen part) hd hall
      exact ⟨n :: t, by simp [parseSegments, hd, hn, ht]⟩
    · have hd2 : pyIsdigitStr (beforeHyphen part) = false := by
        revert hd
        cases pyIsdigitStr (beforeHyphen part) <;> simp
      exact ⟨t, by simp [parseSegments, hd2, ht]⟩

/-- C10 amended: `_parse_version` is total on ASCII input — leading `v`
characters are stripped, each dot-separated segment is truncated at the first
hyphen, non-numeric segments are dropped — and two fully non-numeric ASCII
strings both parse to the empty tuple, so they compare equal in both
directions.  (On non-ASCII input `int()` can raise `ValueError`, which the
handler in `_version_meets_minimum` catches, rejecting the candidate.) -/
theorem parse_version_ascii_total :
    (∀ s : String, (∀ c ∈ s.data, c.toNat < 128) → ∃ t, _parse_version s = .ok t) ∧
    _parse_version "abc" = .ok [] ∧ _parse_version "def" = .ok [] ∧
    _version_meets_minimum "abc" "def" = true ∧
    _version_meets_minimum "def" "abc" = true := by
  refine ⟨?_, rfl, rfl, rfl, rfl⟩
  intro s hs
  apply parseSegments_ok_of_ascii
  intro seg hseg c hcm
  exact hs c ((List.dropWhile_sublist (p := fun c => c == 'v')).subset
    (mem_of_mem_splitOnChar '.' _ seg hseg c hcm))

/-- Witness for the amended C10 statement at a concrete ASCII input. -/
theorem parse_version_ascii_total_witness :
    ∃ t, _parse_version "v4.52.2" = .ok t :=
  parse_version_ascii_total.1 "v4.52.2" (by decide)

/-- C3 counterexample: `with_suffix(".lock")` does not append `.lock` to the
binary's full filename — on the Unix binary name `yq-linux-amd64-v4.52.2` it
replaces the trailing `.2`, giving `yq-linux-amd64-v4.52.lock`. -/
theorem lock_name_counterexample :
    lockFileName "yq-linux-amd64-v4.52.2" = "yq-linux-amd64-v4.52.lock" ∧
    lockFileName "yq-linux-amd64-v4.52.2" ≠ "yq-linux-amd64-v4.52.2" ++ ".lock" := by
  exact ⟨rfl, by decide⟩

/-- C3 amended: the lock file is the sibling `dest_path.with_suffix(".lock")`,
i.e. the binary filename with its final pathlib dot-suffix (when one exists)
replaced by `.lock`, and with `.lock` appended only when the name has no
dot-suffix.  For the Unix default binary name produced by
`_get_platform_binary_info` this yields `yq-linux-amd64-v4.52.lock`; for the
Windows name `yq-windows-amd64-v4.52.2.exe` it yields
`yq-windows-amd64-v4.52.2.lock`. -/
theorem lock_name_with_suffix :
    (∀ destName : String, '.' ∉ destName.data →
      lockFileName destName = destName ++ ".lock") ∧
    _get_platform_binary_info "linux" "amd64" DEFAULT_YQ_VERSION =
      .ok ("yq-linux-amd64", "yq-linux-amd64-v4.52.2", "yq_linux_amd64") ∧
    lockFileName "yq-linux-amd64-v4.52.2" = "yq-linux-amd64-v4.52.lock" ∧
    lockFileName "yq-windows-amd64-v4.52.2.exe" = "yq-windows-amd64-v4.52.2.lock" := by
  refine ⟨?_, rfl, rfl, rfl⟩
  intro destName h
  have hsuf : pySuffix destName.data = [] := by
    unfold pySuffix
    have htw : destName.data.reverse.takeWhile (fun c => c != '.') =
        destName.data.reverse := by
      apply List.takeWhile_eq_self_iff.mpr
      intro a ha
      have : a ∈ destName.data := List.mem_reverse.mp ha
      simp only [bne_iff_ne, ne_eq]
      intro e
      exact h (e ▸ this)
    rw [htw, List.reverse_reverse]
    simp
  apply String.ext
  unfold lockFileName pyWithSuffix
  rw [hsuf]
  simp [String.data_append]

/-- Witness for the amended C3 statement on a dot-free name. -/
theorem lock_name_with_suffix_witness :
    lockFileName "LICENSE" = "LICENSE" ++ ".lock" :=
  lock_name_with_suffix.1 "LICENSE" (by decide)

/-- C8: for the pinned default version `_get_checksums` returns exactly the
compiled-in checksum table with zero network manifest fetches; for any other
version it takes the remote-manifest path (one fetch). -/
theorem get_checksums_default_bundled :
    (∀ fetch, _get_checksums DEFAULT_YQ_VERSION fetch = (.ok DEFAULT_YQ_CHECKSUMS, 0)) ∧
    (∀ v fetch, v ≠ DEFAULT_YQ_VERSION →
      _get_checksums v fetch = (_fetch_checksums_from_github fetch, 1)) := by
  constructor
  · intro fetch
    simp [_get_checksums]
  · intro v fetch hv
    simp [_get_checksums, hv]

/-- Witness for C8 on a concrete non-default version. -/
theorem get_checksums_default_bundled_witness :
    _get_checksums "v4.50.0" (.ok "") = (_fetch_checksums_from_github (.ok ""), 1) :=
  get_checksums_default_bundled.2 "v4.50.0" (.ok "") (by decide)

section FileSystemLemmas

variable {C : Type}

theorem isSome_false_iff {α : Type} (o : Option α) : o.isSome = false ↔ o = none := by
  cases o <;> simp

theorem lookup_cons_pair (n k : String) (v : C) (l : List (String × C)) :
    List.lookup n ((k, v) :: l) = if n = k then some v else List.lookup n l := by
  by_cases h : n = k
  · subst h
    simp [List.lookup]
  · have hb : (n == k) = false := beq_eq_false_iff_ne.mpr h
    simp [List.lookup, hb, h]

theorem lookup_append_single_ne (fs : List (String × C)) (k n : String) (c : C)
    (h : n ≠ k) : List.lookup n (fs ++ [(k, c)]) = List.lookup n fs := by
  induction fs with
  | nil =>
    rw [List.nil_append, lookup_cons_pair, if_neg h]
  | cons e rest ih =>
    obtain ⟨k2, v2⟩ := e
    rw [List.cons_append, lookup_cons_pair, lookup_cons_pair, ih]

theorem lookup_append_single_self (fs : List (String × C)) (k : String) (c : C)
    (h : List.lookup k fs = none) : List.lookup k (fs ++ [(k, c)]) = some c := by
  induction fs with
  | nil =>
    rw [List.nil_append, lookup_cons_pair, if_pos rfl]
  | cons e rest ih =>
    obtain ⟨k2, v2⟩ := e
    rw [lookup_cons_pair] at h
    by_cases hk : k = k2
    · rw [if_pos hk] at h
      cases h
    · rw [if_neg hk] at h
      rw [List.cons_append, lookup_cons_pair, if_neg hk]
      exact ih h

theorem lookup_map_overwrite_ne (fs : List (String × C)) (n : String) (c : C)
    (m : String) (h : m ≠ n) :
    List.lookup m (fs.map fun e => if e.1 = n then (n, c) else e) = List.lookup m fs := by
  induction fs with
  | nil => rfl
  | cons e rest ih =>
    obtain ⟨k, v⟩ := e
    simp only [List.map_cons]
    by_cases hk : k = n
    · rw [show (if ((k, v) : String × C).1 = n then (n, c) else (k, v)) = (n, c) from
        if_pos hk]
      have hmk : m ≠ k := fun e => h (e.trans hk)
      rw [lookup_cons_pair, lookup_cons_pair, if_neg h, if_neg hmk, ih]
    · rw [show (if ((k, v) : String × C).1 = n then (n, c) else (k, v)) = (k, v) from
        if_neg hk]
      rw [lookup_cons_pair, lookup_cons_pair, ih]

theorem lookup_map_overwrite_self (fs : List (String × C)) (n : String) (c : C)
    (h : (List.lookup n fs).isSome = true) :
    List.lookup n (fs.map fun e => if e.1 = n then (n, c) else e) = some c := by
  induction fs with
  | nil => simp [List.lookup] at h
  | cons e rest ih =>
    obtain ⟨k, v⟩ := e
    simp only [List.map_cons]
    by_cases hk : k = n
    · rw [show (if ((k, v) : String × C).1 = n then (n, c) else (k, v)) = (n, c) from
        if_pos hk]
      rw [lookup_cons_pair, if_pos rfl]
    · rw [show (if ((k, v) : String × C).1 = n then (n, c) else (k, v)) = (k, v) from
        if_neg hk]
      have hnk : n ≠ k := fun e => hk e.symm
      rw [lookup_cons_pair, if_neg hnk]
      rw [lookup_cons_pair, if_neg hnk] at h
      exact ih h

theorem lookup_fsInsert_self (fs : List (String × C)) (n : String) (c : C) :
    List.lookup n (fsInsert fs n c) = some c := by
  unfold fsInsert
  by_cases h : (List.lookup n fs).isSome = true
  · rw [if_pos h]
    exact lookup_map_overwrite_self fs n c h
  · rw [if_neg h]
    have hn : List.lookup n fs = none := by
      revert h
      cases hx : List.lookup n fs <;> simp
    exact lookup_append_single_self fs n c hn

theorem lookup_fsInsert_ne (fs : List (String × C)) (n : String) (c : C)
    (m : String) (h : m ≠ n) : List.lookup m (fsInsert fs n c) = List.lookup m fs := by
  unfold fsInsert
  by_cases hs : (List.lookup n fs).isSome = true
  · rw [if_pos hs]
    exact lookup_map_overwrite_ne fs n c m h
  · rw [if_neg hs]
    exact lookup_append_single_ne fs n m c h

theorem lookup_fsRemove_self (fs : List (String × C)) (n : String) :
    List.lookup n (fsRemove fs n) = none := by
  induction fs with
  | nil => rfl
  | cons e rest ih =>
    obtain ⟨k, v⟩ := e
    unfold fsRemove at ih ⊢
    by_cases hk : k = n
    · subst hk
      simp only [List.filter_cons, bne_self_eq_false, Bool.false_eq_true, if_false]
      exact ih
    · have : ((k, v).1 != n) = true := by simp [bne_iff_ne]; exact hk
      simp only [List.filter_cons, this, if_true]
      rw [lookup_cons_pair, if_neg (fun e => hk e.symm)]
      exact ih

theorem lookup_fsRemove_ne (fs : List (String × C)) (n m : String) (h : m ≠ n) :
    List.lookup m (fsRemove fs n) = List.lookup m fs := by
  induction fs with
  | nil => rfl
  | cons e rest ih =>
    obtain ⟨k, v⟩ := e
    unfold fsRemove at ih ⊢
    by_cases hk : k = n
    · subst hk
      simp only [List.filter_cons, bne_self_eq_false, Bool.false_eq_true, if_false]
      rw [ih, lookup_cons_pair, if_neg h]
    · have : ((k, v).1 != n) = true := by simp [bne_iff_ne]; exact hk
      simp only [List.filter_cons, this, if_true]
      rw [lookup_cons_pair, lookup_cons_pair, ih]

theorem lookup_fsAfterLock_ne (lc : C) (ap : Option C) (dn : String)
    (fs : List (String × C)) (n : String) (h1 : n ≠ dn) (h2 : n ≠ lockFileName dn) :
    List.lookup n (fsAfterLock lc ap dn fs) = List.lookup n fs := by
  unfold fsAfterLock
  cases ap with
  | none =>
    by_cases hl : (List.lookup (lockFileName dn) fs).isSome = true
    · simp only [hl, if_true]
    · simp only [hl, if_false]
      exact lookup_append_single_ne fs _ n _ h2
  | some c =>
    rw [lookup_fsInsert_ne _ _ _ _ h1]
    by_cases hl : (List.lookup (lockFileName dn) fs).isSome = true
    · simp only [hl, if_true]
    · simp only [hl, if_false]
      exact lookup_append_single_ne fs _ n _ h2

theorem lookup_fsAfterLock_appeared (lc : C) (dn : String) (c : C)
    (fs : List (String × C)) :
    List.lookup dn (fsAfterLock lc (some c) dn fs) = some c := by
  unfold fsAfterLock
  exact lookup_fsInsert_self _ dn c

/-- `fsFinallyTemp` does not touch other names. -/
theorem lookup_fsFinallyTemp_ne (unlinkOK : String → Bool) (temp : String)
    (fs : List (String × C)) (m : String) (h : m ≠ temp) :
    List.lookup m (fsFinallyTemp unlinkOK temp fs) = List.lookup m fs := by
  unfold fsFinallyTemp
  by_cases hc : ((List.lookup temp fs).isSome && unlinkOK temp) = true
  · rw [if_pos hc]
    exact lookup_fsRemove_ne fs temp m h
  · rw [if_neg hc]

/-- When the unlink succeeds, `fsFinallyTemp` leaves no temp file behind. -/
theorem lookup_fsFinallyTemp_removed (unlinkOK : String → Bool) (temp : String)
    (fs : List (String × C)) (hu : unlinkOK temp = true) :
    List.lookup temp (fsFinallyTemp unlinkOK temp fs) = none := by
  unfold fsFinallyTemp
  by_cases hc : ((List.lookup temp fs).isSome && unlinkOK temp) = true
  · rw [if_pos hc]
    exact lookup_fsRemove_self fs temp
  · rw [if_neg hc]
    have hx : (List.lookup temp fs).isSome = false := by
      revert hc
      rw [hu]
      cases (List.lookup temp fs).isSome <;> simp
    exact (isSome_false_iff _).mp hx

/-- When the unlink fails (suppressed `OSError`), `fsFinallyTemp` changes
nothing: the temp file stays behind. -/
theorem fsFinallyTemp_of_unlink_false (unlinkOK : String → Bool) (temp : String)
    (fs : List (String × C)) (hu : unlinkOK temp = false) :
    fsFinallyTemp unlinkOK temp fs = fs := by
  unfold fsFinallyTemp
  have hc : ((List.lookup temp fs).isSome && unlinkOK temp) = false := by
    rw [hu, Bool.and_false]
  rw [if_neg (by rw [hc]; exact fun h => by cases h)]

/-- The temp file and the lock file of one destination never collide:
`with_suffix` glues the same stem to two different suffixes. -/
theorem tempFileName_ne_lockFileName (dn hex : String) :
    tempFileName dn hex ≠ lockFileName dn := by
  unfold tempFileName lockFileName pyWithSuffix
  intro h
  have hd := congrArg String.data h
  simp only [String.data_append] at hd
  by_cases hs : (pySuffix dn.data).length = 0
  · rw [if_pos hs, if_pos hs] at hd
    have := List.append_cancel_left hd
    simp at this
  · rw [if_neg hs, if_neg hs] at hd
    have := List.append_cancel_left hd
    simp at this

/-- The first element surviving `dropWhile` falsifies the predicate. -/
theorem dropWhile_head_false (p : Char → Bool) :
    ∀ (l : List Char) (c : Char) (rest : List Char),
      l.dropWhile p = c :: rest → p c = false := by
  intro l
  induction l with
  | nil =>
    intro c rest h
    cases h
  | cons a as ih =>
    intro c rest h
    by_cases hp : p a = true
    · rw [List.dropWhile_cons_of_pos hp] at h
      exact ih c rest h
    · have hp2 : p a = false := by
        revert hp
        cases p a <;> simp
      rw [List.dropWhile_cons_of_neg (by rw [hp2]; exact fun h => by cases h)] at h
      injection h with h1 _
      rw [← h1]
      exact hp2

/-- A nonempty pathlib suffix starts with the dot, carries no further dot, and
glues back onto the stem to recover the name. -/
theorem pySuffix_shape (l : List Char) (h : pySuffix l ≠ []) :
    ∃ tail, pySuffix l = '.' :: tail ∧ (∀ c ∈ tail, c ≠ '.') ∧
      l.take (l.length - (pySuffix l).length) ++ pySuffix l = l := by
  by_cases hcond : ((l.reverse.takeWhile (fun c => c != '.')).reverse.length = l.length ∨
      (l.reverse.takeWhile (fun c => c != '.')).reverse.length = 0 ∨
      l.length - (l.reverse.takeWhile (fun c => c != '.')).reverse.length - 1 = 0)
  · exfalso
    apply h
    simp only [pySuffix]
    rw [if_pos hcond]
  have hval : pySuffix l = '.' :: (l.reverse.takeWhile (fun c => c != '.')).reverse := by
    simp only [pySuffix]
    rw [if_neg hcond]
  refine ⟨(l.reverse.takeWhile (fun c => c != '.')).reverse, hval, ?_, ?_⟩
  · intro c hc
    have hmem := List.mem_reverse.mp hc
    have := List.mem_takeWhile_imp hmem
    simpa using this
  · have hsplit := List.takeWhile_append_dropWhile (fun c => c != '.') l.reverse
    cases hdw : l.reverse.dropWhile (fun c => c != '.') with
    | nil =>
      exfalso
      rw [hdw, List.append_nil] at hsplit
      apply hcond
      left
      rw [List.length_reverse, hsplit, List.length_reverse]
    | cons d dw =>
      have hd : d = '.' := by
        have := dropWhile_head_false (fun c => c != '.') l.reverse d dw hdw
        simpa using this
      subst hd
      rw [hdw] at hsplit
      obtain ⟨tw, htw⟩ : ∃ tw, l.reverse.takeWhile (fun c => c != '.') = tw := ⟨_, rfl⟩
      rw [htw] at hsplit
      rw [hval, htw]
      have hl2 : l = dw.reverse ++ '.' :: tw.reverse := by
        have h2 := congrArg List.reverse hsplit
        rw [List.reverse_reverse] at h2
        rw [← h2, List.reverse_append, List.reverse_cons, List.append_assoc]
        rfl
      have hlen : l.length = dw.reverse.length + ('.' :: tw.reverse).length := by
        rw [hl2]
        simp
      have harith : l.length - ('.' :: tw.reverse).length = dw.reverse.length := by
        omega
      rw [harith]
      have htake : l.take dw.reverse.length = dw.reverse := by
        conv_lhs => rw [hl2]
        exact List.take_left dw.reverse _
      rw [htake]
      exact hl2.symm

/-- `with_suffix` with a suffix that carries an inner dot (such as
`.tmp.<token>`) can never return the name unchanged: a pathlib suffix has no
dot after its leading one. -/
theorem pyWithSuffix_tmp_ne_self (l : List Char) (hex : List Char) :
    pyWithSuffix l ('.' :: 't' :: 'm' :: 'p' :: '.' :: hex) ≠ l := by
  intro heq
  simp only [pyWithSuffix] at heq
  by_cases hOld : (pySuffix l).length = 0
  · rw [if_pos hOld] at heq
    have hL := congrArg List.length heq
    simp at hL
  · rw [if_neg hOld] at heq
    have hne : pySuffix l ≠ [] := fun e => hOld (by rw [e]; rfl)
    obtain ⟨tail, hps, htail, hdec⟩ := pySuffix_shape l hne
    have hcancel : ('.' :: 't' :: 'm' :: 'p' :: '.' :: hex) = pySuffix l := by
      have hgoal : l.take (l.length - (pySuffix l).length) ++
          ('.' :: 't' :: 'm' :: 'p' :: '.' :: hex) =
          l.take (l.length - (pySuffix l).length) ++ pySuffix l := by
        rw [hdec]
        exact heq
      exact List.append_cancel_left hgoal
    rw [hps] at hcancel
    injection hcancel with _ htl
    have hdot : '.' ∈ tail := by
      rw [← htl]
      simp
    exact htail '.' hdot rfl

/-- The temp file name never equals the destination name: the temp suffix
`.tmp.<token>` contains a dot past its head, which no pathlib suffix does. -/
theorem tempFileName_ne_destName (dn hex : String) : tempFileName dn hex ≠ dn := by
  unfold tempFileName
  intro h
  have hd := congrArg String.data h
  have hs : (".tmp." ++ hex).data = '.' :: 't' :: 'm' :: 'p' :: '.' :: hex.data := by
    simp [String.data_append]
  rw [hs] at hd
  exact pyWithSuffix_tmp_ne_self dn.data hex.data hd

section DownloadPaths

variable {C : Type} (sha256hex : C → String)
variable (binary_name github_name destName version platPfx : String)
variable (o : DlOracle C) (fs : List (String × C))

theorem download_path_fast (h : (List.lookup destName fs).isSome = true) :
    _download_yq_binary sha256hex binary_name github_name destName version platPfx o fs =
      ⟨.ok (), fs, 0, 0, 0⟩ := by
  unfold _download_yq_binary
  rw [if_pos h]

theorem download_path_recheck (h1 : (List.lookup destName fs).isSome = false)
    (h2 : (List.lookup destName (fsAfterLock o.lockContent o.appeared destName fs)).isSome
      = true) :
    _download_yq_binary sha256hex binary_name github_name destName version platPfx o fs =
      ⟨.ok (), fsAfterLock o.lockContent o.appeared destName fs, 0, 0, 0⟩ := by
  simp [_download_yq_binary, h1, h2]

theorem download_path_fetch_error (f : NetFail)
    (h1 : (List.lookup destName fs).isSome = false)
    (h2 : (List.lookup destName (fsAfterLock o.lockContent o.appeared destName fs)).isSome
      = false)
    (hc : (_get_checksums version o.fetchManifest).1 = .error f.toYQErr) :
    _download_yq_binary sha256hex binary_name github_name destName version platPfx o fs =
      ⟨.error f.toYQErr, fsAfterLock o.lockContent o.appeared destName fs, 1,
        (_get_checksums version o.fetchManifest).2, 0⟩ := by
  simp [_download_yq_binary, h1, h2, hc]

theorem download_path_no_checksum (checksums : List (String × String))
    (h1 : (List.lookup destName fs).isSome = false)
    (h2 : (List.lookup destName (fsAfterLock o.lockContent o.appeared destName fs)).isSome
      = false)
    (hc : (_get_checksums version o.fetchManifest).1 = .ok checksums)
    (hg : List.lookup github_name checksums = none) :
    _download_yq_binary sha256hex binary_name github_name destName version platPfx o fs =
      ⟨.error .noChecksum, fsAfterLock o.lockContent o.appeared destName fs, 1,
        (_get_checksums version o.fetchManifest).2, 0⟩ := by
  simp [_download_yq_binary, h1, h2, hc, hg]

theorem download_path_net_error (checksums : List (String × String)) (expected : String)
    (f : NetFail)
    (h1 : (List.lookup destName fs).isSome = false)
    (h2 : (List.lookup destName (fsAfterLock o.lockContent o.appeared destName fs)).isSome
      = false)
    (hc : (_get_checksums version o.fetchManifest).1 = .ok checksums)
    (hg : List.lookup github_name checksums = some expected)
    (hd : o.downloadOutcome = .error f) :
    _download_yq_binary sha256hex binary_name github_name destName version platPfx o fs =
      ⟨.error f.toYQErr,
        fsFinallyTemp o.unlinkOK (tempFileName destName o.tempHex)
          (fsAfterLock o.lockContent o.appeared destName fs),
        1, (_get_checksums version o.fetchManifest).2, 1⟩ := by
  simp [_download_yq_binary, h1, h2, hc, hg, hd]

theorem download_path_mismatch (checksums : List (String × String)) (expected : String)
    (content : C)
    (h1 : (List.lookup destName fs).isSome = false)
    (h2 : (List.lookup destName (fsAfterLock o.lockContent o.appeared destName fs)).isSome
      = false)
    (hc : (_get_checksums version o.fetchManifest).1 = .ok checksums)
    (hg : List.lookup github_name checksums = some expected)
    (hd : o.downloadOutcome = .ok content)
    (hm : (sha256hex content != expected) = true) :
    _download_yq_binary sha256hex binary_name github_name destName version platPfx o fs =
      ⟨.error .checksumMismatch,
        fsFinallyTemp o.unlinkOK (tempFileName destName o.tempHex)
          (fsInsert (fsAfterLock o.lockContent o.appeared destName fs)
            (tempFileName destName o.tempHex) content),
        1, (_get_checksums version o.fetchManifest).2, 1⟩ := by
  simp [_download_yq_binary, h1, h2, hc, hg, hd, hm]

theorem download_path_success (checksums : List (String × String)) (expected : String)
    (content : C)
    (h1 : (List.lookup destName fs).isSome = false)
    (h2 : (List.lookup destName (fsAfterLock o.lockContent o.appeared destName fs)).isSome
      = false)
    (hc : (_get_checksums version o.fetchManifest).1 = .ok checksums)
    (hg : List.lookup github_name checksums = some expected)
    (hd : o.downloadOutcome = .ok content)
    (hm : (sha256hex content != expected) = false) :
    _download_yq_binary sha256hex binary_name github_name destName version platPfx o fs =
      ⟨.ok (),
        (let fs₂ := fsAfterLock o.lockContent o.appeared destName fs
         let temp := tempFileName destName o.tempHex
         let fs₅ := _cleanup_old_versions (fsRename (fsInsert fs₂ temp content) temp destName)
           platPfx binary_name o.unlinkOK
         let fs₅f := fsFinallyTemp o.unlinkOK temp fs₅
         if o.unlinkOK (lockFileName destName) then fsRemove fs₅f (lockFileName destName)
         else fs₅f),
        1, (_get_checksums version o.fetchManifest).2, 1⟩ := by
  simp [_download_yq_binary, h1, h2, hc, hg, hd, hm]

end DownloadPaths

end FileSystemLemmas

/-- C4: when the destination already exists — at the unlocked fast check, or
at the re-check after acquiring the lock because another process completed the
download while this one waited — `_download_yq_binary` returns successfully
with no checksum fetch, no network transfer, and no file change other than the
lock file itself (the destination on the re-check path was written by the
other process, supplied here by the `appeared` oracle). -/
theorem download_skips_when_present {C : Type} (sha256hex : C → String)
    (binary_name github_name destName version platPfx : String)
    (o : DlOracle C) (fs : List (String × C)) :
    ((List.lookup destName fs).isSome = true →
      _download_yq_binary sha256hex binary_name github_name destName version platPfx o fs =
        ⟨.ok (), fs, 0, 0, 0⟩) ∧
    (List.lookup destName fs = none → ∀ c, o.appeared = some c →
      _download_yq_binary sha256hex binary_name github_name destName version platPfx o fs =
        ⟨.ok (), fsAfterLock o.lockContent o.appeared destName fs, 0, 0, 0⟩ ∧
      List.lookup destName (fsAfterLock o.lockContent o.appeared destName fs) = some c ∧
      (∀ n, n ≠ destName → n ≠ lockFileName destName →
        List.lookup n (fsAfterLock o.lockContent o.appeared destName fs) =
          List.lookup n fs)) := by
  constructor
  · intro h
    exact download_path_fast sha256hex binary_name github_name destName version platPfx o fs h
  · intro h1 c hap
    have h2 : List.lookup destName (fsAfterLock o.lockContent o.appeared destName fs)
        = some c := by
      rw [hap]
      exact lookup_fsAfterLock_appeared o.lockContent destName c fs
    refine ⟨?_, h2, ?_⟩
    · exact download_path_recheck sha256hex binary_name github_name destName version platPfx
        o fs (by rw [h1]; rfl) (by rw [h2]; rfl)
    · intro n hn hl
      exact lookup_fsAfterLock_ne o.lockContent o.appeared destName fs n hn hl

/-- Witness for C4: a concrete run in which the destination appears during the
lock wait, returning with zero checksum fetches and transfers. -/
theorem download_skips_when_present_witness :
    _download_yq_binary (fun c : String => c) "yq-linux-amd64-v4.52.2" "yq_linux_amd64"
        "yq-linux-amd64-v4.52.2" "v4.52.2" "yq-linux-amd64"
        ⟨some "BIN", "", "ab12cd34", .error .network, .error .network, fun _ => true⟩ [] =
      ⟨.ok (), fsAfterLock "" (some "BIN") "yq-linux-amd64-v4.52.2" [], 0, 0, 0⟩ ∧
    List.lookup "yq-linux-amd64-v4.52.2"
      (fsAfterLock "" (some "BIN") "yq-linux-amd64-v4.52.2" []) = some "BIN" :=
  have h := (download_skips_when_present (fun c : String => c) "yq-linux-amd64-v4.52.2"
    "yq_linux_amd64" "yq-linux-amd64-v4.52.2" "v4.52.2" "yq-linux-amd64"
    ⟨some "BIN", "", "ab12cd34", .error .network, .error .network, fun _ => true⟩ []).2
    rfl "BIN" rfl
  ⟨h.1, h.2.1⟩

set_option maxHeartbeats 1600000

/-- C2 counterexample: on a checksum mismatch whose `finally`-block temp
unlink fails (the source suppresses the `OSError`), the error propagates but
the temporary file is left behind — the claim's unconditional "the temporary
file is removed before the error propagates / no error path leaves a stray
temp file" is false on the code. -/
theorem download_error_stray_temp :
    (_download_yq_binary (fun c : String => c) "yq-linux-amd64-v4.52.2" "yq_linux_amd64"
      "yq-linux-amd64-v4.52.2" "v4.52.2" "yq-linux-amd64"
      ⟨none, "", "ab12cd34", .error .network, .ok "EVIL", fun _ => false⟩ []).result =
      .error .checksumMismatch ∧
    List.lookup (tempFileName "yq-linux-amd64-v4.52.2" "ab12cd34")
      (_download_yq_binary (fun c : String => c) "yq-linux-amd64-v4.52.2" "yq_linux_amd64"
        "yq-linux-amd64-v4.52.2" "v4.52.2" "yq-linux-amd64"
        ⟨none, "", "ab12cd34", .error .network, .ok "EVIL", fun _ => false⟩ []).fs =
      some "EVIL" :=
  ⟨rfl, rfl⟩

/-- C2 amended: every invocation of `_download_yq_binary` that fails after
lock acquisition never creates or modifies the final destination and touches
no file other than the lock file and its own temp file; the temp file removal
before the error propagates is best-effort — the checksum-mismatch path
attempts the unlink in its `finally` block, which removes the temp file
exactly when the unlink succeeds and, because the `OSError` is suppressed,
leaves the stray temp file behind when it fails; on the other error paths the
temp slot holds nothing this invocation wrote. -/
theorem download_error_cleans_up {C : Type} (sha256hex : C → String)
    (binary_name github_name destName version platPfx : String)
    (o : DlOracle C) (fs : List (String × C)) (e : YQErr)
    (he : (_download_yq_binary sha256hex binary_name github_name destName version platPfx
      o fs).result = .error e) :
    List.lookup destName fs = none ∧
    List.lookup destName (_download_yq_binary sha256hex binary_name github_name destName
      version platPfx o fs).fs = none ∧
    (∀ n, n ≠ lockFileName destName → n ≠ tempFileName destName o.tempHex →
      List.lookup n (_download_yq_binary sha256hex binary_name github_name destName
        version platPfx o fs).fs = List.lookup n fs) ∧
    (e = .checksumMismatch → o.unlinkOK (tempFileName destName o.tempHex) = true →
      List.lookup (tempFileName destName o.tempHex) (_download_yq_binary sha256hex
        binary_name github_name destName version platPfx o fs).fs = none) ∧
    (e = .checksumMismatch → o.unlinkOK (tempFileName destName o.tempHex) = false →
      (List.lookup (tempFileName destName o.tempHex) (_download_yq_binary sha256hex
        binary_name github_name destName version platPfx o fs).fs).isSome = true) ∧
    (e ≠ .checksumMismatch →
      List.lookup (tempFileName destName o.tempHex) (_download_yq_binary sha256hex
        binary_name github_name destName version platPfx o fs).fs =
        List.lookup (tempFileName destName o.tempHex) fs ∨
      List.lookup (tempFileName destName o.tempHex) (_download_yq_binary sha256hex
        binary_name github_name destName version platPfx o fs).fs = none) := by
  have hdt : destName ≠ tempFileName destName o.tempHex :=
    fun ee => tempFileName_ne_destName destName o.tempHex ee.symm
  by_cases h1 : (List.lookup destName fs).isSome = true
  · rw [download_path_fast sha256hex binary_name github_name destName version platPfx o fs
      h1] at he
    cases he
  have h1f : (List.lookup destName fs).isSome = false := by
    revert h1
    cases (List.lookup destName fs).isSome <;> simp
  have h1n : List.lookup destName fs = none := (isSome_false_iff _).mp h1f
  by_cases h2 : (List.lookup destName
      (fsAfterLock o.lockContent o.appeared destName fs)).isSome = true
  · rw [download_path_recheck sha256hex binary_name github_name destName version platPfx o fs
      h1f h2] at he
    cases he
  have h2f : (List.lookup destName
      (fsAfterLock o.lockContent o.appeared destName fs)).isSome = false := by
    revert h2
    cases (List.lookup destName (fsAfterLock o.lockContent o.appeared destName fs)).isSome
      <;> simp
  have h2n : List.lookup destName (fsAfterLock o.lockContent o.appeared destName fs)
      = none := (isSome_false_iff _).mp h2f
  have frame2 : ∀ n, n ≠ lockFileName destName →
      List.lookup n (fsAfterLock o.lockContent o.appeared destName fs) =
        List.lookup n fs := by
    intro n hl
    by_cases hd : n = destName
    · subst hd
      rw [h2n, h1n]
    · exact lookup_fsAfterLock_ne o.lockContent o.appeared destName fs n hd hl
  cases hc : (_get_checksums version o.fetchManifest).1 with
  | error e2 =>
    have hf : ∃ f : NetFail, e2 = f.toYQErr := by
      revert hc
      unfold _get_checksums _fetch_checksums_from_github
      by_cases hv : version = DEFAULT_YQ_VERSION
      · simp [hv]
      · simp only [hv, if_neg hv, if_false]
        cases o.fetchManifest with
        | error f =>
          intro h
          cases h
          exact ⟨f, rfl⟩
        | ok m =>
          intro h
          cases h
    obtain ⟨f, rfl⟩ := hf
    have heq := download_path_fetch_error sha256hex binary_name github_name destName version
      platPfx o fs f h1f h2f hc
    rw [heq] at he ⊢
    cases he
    refine ⟨h1n, h2n, fun n hl _ => frame2 n hl, ?_, ?_, ?_⟩
    · intro hmm
      cases f <;> cases hmm
    · intro hmm
      cases f <;> cases hmm
    · intro _
      left
      exact frame2 _ (tempFileName_ne_lockFileName destName o.tempHex)
  | ok checksums =>
    cases hg : List.lookup github_name checksums with
    | none =>
      have heq := download_path_no_checksum sha256hex binary_name github_name destName
        version platPfx o fs checksums h1f h2f hc hg
      rw [heq] at he ⊢
      cases he
      refine ⟨h1n, h2n, fun n hl _ => frame2 n hl, ?_, ?_, ?_⟩
      · intro hmm
        cases hmm
      · intro hmm
        cases hmm
      · intro _
        left
        exact frame2 _ (tempFileName_ne_lockFileName destName o.tempHex)
    | some expected =>
      cases hd : o.downloadOutcome with
      | error f =>
        have heq := download_path_net_error sha256hex binary_name github_name destName
          version platPfx o fs checksums expected f h1f h2f hc hg hd
        rw [heq] at he ⊢
        cases he
        refine ⟨h1n, ?_, ?_, ?_, ?_, ?_⟩
        · rw [lookup_fsFinallyTemp_ne _ _ _ _ hdt]
          exact h2n
        · intro n hl ht
          rw [lookup_fsFinallyTemp_ne _ _ _ _ ht]
          exact frame2 n hl
        · intro hmm
          cases f <;> cases hmm
        · intro hmm
          cases f <;> cases hmm
        · intro _
          by_cases hu : o.unlinkOK (tempFileName destName o.tempHex) = true
          · right
            exact lookup_fsFinallyTemp_removed _ _ _ hu
          · have hu2 : o.unlinkOK (tempFileName destName o.tempHex) = false := by
              revert hu
              cases o.unlinkOK (tempFileName destName o.tempHex) <;> simp
            left
            rw [fsFinallyTemp_of_unlink_false _ _ _ hu2]
            exact frame2 _ (tempFileName_ne_lockFileName destName o.tempHex)
      | ok content =>
        by_cases hm : (sha256hex content != expected) = true
        · have heq := download_path_mismatch sha256hex binary_name github_name destName
            version platPfx o fs checksums expected content h1f h2f hc hg hd hm
          rw [heq] at he ⊢
          injection he with he2
          subst he2
          refine ⟨h1n, ?_, ?_, ?_, ?_, ?_⟩
          · rw [lookup_fsFinallyTemp_ne _ _ _ _ hdt, lookup_fsInsert_ne _ _ _ _ hdt]
            exact h2n
          · intro n hl ht
            rw [lookup_fsFinallyTemp_ne _ _ _ _ ht, lookup_fsInsert_ne _ _ _ _ ht]
            exact frame2 n hl
          · intro _ hu
            exact lookup_fsFinallyTemp_removed _ _ _ hu
          · intro _ hu2
            rw [fsFinallyTemp_of_unlink_false _ _ _ hu2, lookup_fsInsert_self]
            rfl
          · intro hne
            exact absurd rfl hne
        · have hmf : (sha256hex content != expected) = false := by
            revert hm
            cases sha256hex content != expected <;> simp
          have heq := download_path_success sha256hex binary_name github_name destName
            version platPfx o fs checksums expected content h1f h2f hc hg hd hmf
          rw [heq] at he
          cases he

/-- Witness for the amended C2: a concrete checksum-mismatch run against an
empty cache whose temp unlink succeeds — the call raises, the destination is
never created, and the temp file is gone. -/
theorem download_error_cleans_up_witness :
    List.lookup "yq-linux-amd64-v4.52.2" ([] : List (String × String)) = none ∧
    List.lookup "yq-linux-amd64-v4.52.2" (_download_yq_binary (fun c : String => c)
      "yq-linux-amd64-v4.52.2" "yq_linux_amd64" "yq-linux-amd64-v4.52.2" "v4.52.2"
      "yq-linux-amd64"
      ⟨none, "", "ab12cd34", .error .network, .ok "EVIL", fun _ => true⟩ []).fs = none ∧
    List.lookup (tempFileName "yq-linux-amd64-v4.52.2" "ab12cd34")
      (_download_yq_binary (fun c : String => c) "yq-linux-amd64-v4.52.2" "yq_linux_amd64"
        "yq-linux-amd64-v4.52.2" "v4.52.2" "yq-linux-amd64"
        ⟨none, "", "ab12cd34", .error .network, .ok "EVIL", fun _ => true⟩ []).fs = none :=
  have h := download_error_cleans_up (fun c : String => c) "yq-linux-amd64-v4.52.2"
    "yq_linux_amd64" "yq-linux-amd64-v4.52.2" "v4.52.2" "yq-linux-amd64"
    ⟨none, "", "ab12cd34", .error .network, .ok "EVIL", fun _ => true⟩ []
    .checksumMismatch rfl
  ⟨h.1, h.2.1, h.2.2.2.1 rfl rfl⟩

/-- One file survives `_cleanup_old_versions` exactly when it does not match
the stale-version glob, or is the current binary, or its unlink failed. -/
theorem cleanup_lookup_aux {C : Type} (fs : List (String × C)) (platPfx current : String)
    (unlinkOK : String → Bool) (n : String) :
    List.lookup n (_cleanup_old_versions fs platPfx current unlinkOK) =
      if (platPfx ++ "-v").isPrefixOf n && n != current && unlinkOK n then none
      else List.lookup n fs := by
  induction fs with
  | nil =>
    simp only [_cleanup_old_versions, List.lookup, ite_self]
  | cons e rest ih =>
    obtain ⟨k, v⟩ := e
    by_cases hk : ((platPfx ++ "-v").isPrefixOf k && k != current) = true
    · by_cases hu : unlinkOK k = true
      · rw [show _cleanup_old_versions ((k, v) :: rest) platPfx current unlinkOK =
            _cleanup_old_versions rest platPfx current unlinkOK from by
          simp [_cleanup_old_versions, hk, hu]]
        rw [ih]
        by_cases hn : n = k
        · subst hn
          have hp : ((platPfx ++ "-v").isPrefixOf n && n != current && unlinkOK n)
              = true := by
            simp [hk, hu]
          rw [if_pos hp, if_pos hp]
        · rw [lookup_cons_pair, if_neg hn]
      · have hu2 : unlinkOK k = false := by
          revert hu
          cases unlinkOK k <;> simp
        rw [show _cleanup_old_versions ((k, v) :: rest) platPfx current unlinkOK =
            (k, v) :: _cleanup_old_versions rest platPfx current unlinkOK from by
          simp [_cleanup_old_versions, hk, hu2]]
        rw [lookup_cons_pair]
        by_cases hn : n = k
        · subst hn
          have hp : ((platPfx ++ "-v").isPrefixOf n && n != current && unlinkOK n)
              = false := by
            rw [hu2]
            simp
          rw [if_pos rfl, hp]
          simp [lookup_cons_pair]
        · rw [if_neg hn, ih, lookup_cons_pair, if_neg hn]
    · have hk2 : ((platPfx ++ "-v").isPrefixOf k && k != current) = false := by
        revert hk
        cases ((platPfx ++ "-v").isPrefixOf k && k != current) <;> simp
      rw [show _cleanup_old_versions ((k, v) :: rest) platPfx current unlinkOK =
          (k, v) :: _cleanup_old_versions rest platPfx current unlinkOK from by
        simp [_cleanup_old_versions, hk2]]
      rw [lookup_cons_pair]
      by_cases hn : n = k
      · subst hn
        have hp : ((platPfx ++ "-v").isPrefixOf n && n != current && unlinkOK n)
            = false := by
          rw [hk2]
          simp
        rw [if_pos rfl, hp]
        simp [lookup_cons_pair]
      · rw [if_neg hn, ih, lookup_cons_pair, if_neg hn]

/-- The return-or-raise outcome of `_download_yq_binary` never depends on
which unlink calls succeed: cleanup and lock-file removal are best-effort. -/
theorem download_result_ignores_unlink {C : Type} (sha256hex : C → String)
    (binary_name github_name destName version platPfx : String)
    (o : DlOracle C) (u : String → Bool) (fs : List (String × C)) :
    (_download_yq_binary sha256hex binary_name github_name destName version platPfx
      { o with unlinkOK := u } fs).result =
    (_download_yq_binary sha256hex binary_name github_name destName version platPfx
      o fs).result := by
  by_cases h1 : (List.lookup destName fs).isSome = true
  · rw [download_path_fast sha256hex binary_name github_name destName version platPfx
      { o with unlinkOK := u } fs h1]
    rw [download_path_fast sha256hex binary_name github_name destName version platPfx
      o fs h1]
  have h1f : (List.lookup destName fs).isSome = false := by
    revert h1
    cases (List.lookup destName fs).isSome <;> simp
  by_cases h2 : (List.lookup destName
      (fsAfterLock o.lockContent o.appeared destName fs)).isSome = true
  · rw [download_path_recheck sha256hex binary_name github_name destName version platPfx
      { o with unlinkOK := u } fs h1f h2]
    rw [download_path_recheck sha256hex binary_name github_name destName version platPfx
      o fs h1f h2]
  have h2f : (List.lookup destName
      (fsAfterLock o.lockContent o.appeared destName fs)).isSome = false := by
    revert h2
    cases (List.lookup destName (fsAfterLock o.lockContent o.appeared destName fs)).isSome
      <;> simp
  cases hc : (_get_checksums version o.fetchManifest).1 with
  | error e2 =>
    have hf : ∃ f : NetFail, e2 = f.toYQErr := by
      revert hc
      unfold _get_checksums _fetch_checksums_from_github
      by_cases hv : version = DEFAULT_YQ_VERSION
      · simp [hv]
      · simp only [hv, if_neg hv, if_false]
        cases o.fetchManifest with
        | error f =>
          intro h
          cases h
          exact ⟨f, rfl⟩
        | ok m =>
          intro h
          cases h
    obtain ⟨f, rfl⟩ := hf
    rw [download_path_fetch_error sha256hex binary_name github_name destName version platPfx
      { o with unlinkOK := u } fs f h1f h2f hc]
    rw [download_path_fetch_error sha256hex binary_name github_name destName version platPfx
      o fs f h1f h2f hc]
  | ok checksums =>
    cases hg : List.lookup github_name checksums with
    | none =>
      rw [download_path_no_checksum sha256hex binary_name github_name destName version
        platPfx { o with unlinkOK := u } fs checksums h1f h2f hc hg]
      rw [download_path_no_checksum sha256hex binary_name github_name destName version
        platPfx o fs checksums h1f h2f hc hg]
    | some expected =>
      cases hd : o.downloadOutcome with
      | error f =>
        rw [download_path_net_error sha256hex binary_name github_name destName version
          platPfx ⟨o.appeared, o.lockContent, o.tempHex, o.fetchManifest, .error f, u⟩
          fs checksums expected f h1f h2f hc hg rfl]
        rw [download_path_net_error sha256hex binary_name github_name destName version
          platPfx o fs checksums expected f h1f h2f hc hg hd]
      | ok content =>
        by_cases hm : (sha256hex content != expected) = true
        · rw [download_path_mismatch sha256hex binary_name github_name destName version
            platPfx ⟨o.appeared, o.lockContent, o.tempHex, o.fetchManifest, .ok content, u⟩
            fs checksums expected content h1f h2f hc hg rfl hm]
          rw [download_path_mismatch sha256hex binary_name github_name destName version
            platPfx o fs checksums expected content h1f h2f hc hg hd hm]
        · have hmf : (sha256hex content != expected) = false := by
            revert hm
            cases sha256hex content != expected <;> simp
          rw [download_path_success sha256hex binary_name github_name destName version
            platPfx ⟨o.appeared, o.lockContent, o.tempHex, o.fetchManifest, .ok content, u⟩
            fs checksums expected content h1f h2f hc hg rfl hmf]
          rw [download_path_success sha256hex binary_name github_name destName version
            platPfx o fs checksums expected content h1f h2f hc hg hd hmf]

/-- C9: after a download of `current`, the pruning pass deletes exactly the
files matching the glob `platform_prefix-v*` other than `current` whose unlink
succeeds — one failed deletion affects neither the fate of any other stale
file nor the outcome of the download that triggered the pruning (the result of
`_download_yq_binary` is the same under any unlink oracle). -/
theorem cleanup_old_versions_correct :
    (∀ (C : Type) (fs : List (String × C)) (platPfx current : String)
      (unlinkOK : String → Bool) (n : String),
      List.lookup n (_cleanup_old_versions fs platPfx current unlinkOK) =
        if (platPfx ++ "-v").isPrefixOf n && n != current && unlinkOK n then none
        else List.lookup n fs) ∧
    (∀ (C : Type) (sha256hex : C → String)
      (binary_name github_name destName version platPfx : String)
      (o : DlOracle C) (u : String → Bool) (fs : List (String × C)),
      (_download_yq_binary sha256hex binary_name github_name destName version platPfx
        { o with unlinkOK := u } fs).result =
      (_download_yq_binary sha256hex binary_name github_name destName version platPfx
        o fs).result) :=
  ⟨fun _ fs platPfx current unlinkOK n => cleanup_lookup_aux fs platPfx current unlinkOK n,
   fun _ sha256hex bn gn dn v pfx o u fs =>
     download_result_ignores_unlink sha256hex bn gn dn v pfx o u fs⟩

/-- A successful version probe implies a zero exit code and the mikefarah/yq
fingerprint in the output. -/
theorem get_yq_version_string_some (probe : ProbeResult) (v : String)
    (h : _get_yq_version_string probe = some v) :
    ∃ rc out, probe = .completed rc out ∧ rc = 0 ∧
      listContainsSub "mikefarah/yq".data out.data = true := by
  cases probe with
  | launchFailure => cases h
  | completed rc out =>
    refine ⟨rc, out, rfl, ?_, ?_⟩
    · simp only [_get_yq_version_string] at h
      by_cases hrc : (rc != 0) = true
      · rw [if_pos hrc] at h
        cases h
      · exact bne_eq_false_iff_eq.mp (by
          revert hrc
          cases rc != 0 <;> simp)
    · simp only [_get_yq_version_string] at h
      by_cases hrc : (rc != 0) = true
      · rw [if_pos hrc] at h
        cases h
      · rw [if_neg hrc] at h
        by_cases hfp : listContainsSub "mikefarah/yq".data out.data = true
        · exact hfp
        · have hfp2 : listContainsSub "mikefarah/yq".data out.data = false := by
            revert hfp
            cases listContainsSub "mikefarah/yq".data out.data <;> simp
          rw [if_pos (by rw [hfp2]; rfl)] at h
          cases h

/-- C7: `_find_system_yq` returns a path only when `shutil.which` produced it,
the probe completed with exit code 0, the output carries the mikefarah/yq
fingerprint, and the extracted version meets the resolved minimum; a launch
failure or timeout, a nonzero exit, or a missing fingerprint each yield `None`
(the probe never raises — every outcome is a value of the model). -/
theorem find_system_yq_correct (whichYq : Option String) (probe : ProbeResult)
    (yqVersionEnv : String) :
    (∀ p, _find_system_yq whichYq probe yqVersionEnv = some p →
      whichYq = some p ∧ (∃ rc out, probe = .completed rc out ∧ rc = 0 ∧
        listContainsSub "mikefarah/yq".data out.data = true) ∧
      ∃ v, _get_yq_version_string probe = some v ∧
        _version_meets_minimum v (get_yq_version yqVersionEnv) = true) ∧
    (probe = .launchFailure → _find_system_yq whichYq probe yqVersionEnv = none) ∧
    (∀ rc out, probe = .completed rc out → rc ≠ 0 →
      _find_system_yq whichYq probe yqVersionEnv = none) ∧
    (∀ rc out, probe = .completed rc out →
      listContainsSub "mikefarah/yq".data out.data = false →
      _find_system_yq whichYq probe yqVersionEnv = none) := by
  refine ⟨?_, ?_, ?_, ?_⟩
  · intro p h
    cases whichYq with
    | none => cases h
    | some q =>
      cases hv : _get_yq_version_string probe with
      | none =>
        simp only [_find_system_yq, hv] at h
        cases h
      | some v =>
        simp only [_find_system_yq, hv] at h
        by_cases hm : _version_meets_minimum v (get_yq_version yqVersionEnv) = true
        · rw [if_pos hm] at h
          cases h
          exact ⟨rfl, get_yq_version_string_some probe v hv, v, rfl, hm⟩
        · rw [if_neg hm] at h
          cases h
  · intro hp
    subst hp
    cases whichYq <;> rfl
  · intro rc out hp hrc
    subst hp
    cases whichYq with
    | none => rfl
    | some q =>
      simp [_find_system_yq, _get_yq_version_string, bne_iff_ne, hrc]
  · intro rc out hp hfp
    subst hp
    cases whichYq with
    | none => rfl
    | some q =>
      simp [_find_system_yq, _get_yq_version_string, hfp]

/-- Witness for C7: a genuine mikefarah/yq probe is accepted, and a launch
failure is rejected, at concrete oracle values. -/
theorem find_system_yq_correct_witness :
    (some "/usr/bin/yq" : Option String) = some "/usr/bin/yq" ∧
    _find_system_yq (some "/usr/bin/yq") .launchFailure "" = none :=
  ⟨((find_system_yq_correct (some "/usr/bin/yq")
      (.completed 0 "yq (https://github.com/mikefarah/yq/) version v4.52.2") "").1
      "/usr/bin/yq" rfl).1,
   (find_system_yq_correct (some "/usr/bin/yq") .launchFailure "").2.1 rfl⟩

/-- C5: a nonempty `YQ_BINARY_PATH` override naming a path that is missing or
not a regular file makes `get_yq_binary_path` raise `YQBinaryNotFoundError`
immediately: no resolution stage after the override check runs (empty event
trace), the storage directory is untouched, and no checksum or network
activity occurs. -/
theorem override_invalid_fails_fast {C : Type} (sha256hex : C → String)
    (env : ResolveEnv) (o : DlOracle C) (fs : List (String × C))
    (h1 : pyStrip env.yqBinaryPath ≠ "")
    (h2 : (env.pathExists (env.expanduser (pyStrip env.yqBinaryPath)) &&
      env.pathIsFile (env.expanduser (pyStrip env.yqBinaryPath))) = false) :
    get_yq_binary_path sha256hex env o fs =
      ⟨.error .overridePathMissing, [], fs, 0, 0, 0⟩ := by
  unfold get_yq_binary_path
  simp [h1, h2]

/-- Witness for C5: a concrete override path that no file-system oracle
accepts fails with `overridePathMissing` and an empty event trace. -/
theorem override_invalid_fails_fast_witness :
    get_yq_binary_path (fun c : String => c)
      ⟨"/nonexistent/yq", "", "linux", "x86_64", fun s => s, fun _ => false,
        fun _ => false, "/home/u/.local/bin", none, .launchFailure⟩
      ⟨none, "", "ab12cd34", .error .network, .error .network, fun _ => true⟩ [] =
      ⟨.error .overridePathMissing, [], [], 0, 0, 0⟩ :=
  override_invalid_fails_fast (fun c : String => c)
    ⟨"/nonexistent/yq", "", "linux", "x86_64", fun s => s, fun _ => false,
      fun _ => false, "/home/u/.local/bin", none, .launchFailure⟩
    ⟨none, "", "ab12cd34", .error .network, .error .network, fun _ => true⟩ []
    (by decide) rfl

namespace Race

/-- The invariant holds initially. -/
theorem inv_init (n : Nat) : Inv (init n) := by
  constructor
  · intro i h
    rcases h with h | h | h <;> cases h
  · intro i h
    cases h
  · intro i
    constructor
    · intro h
      cases h
    · intro h
      cases h
  · intro i h
    cases h
  · intro i h
    rcases h with h | h | h <;> cases h
  · constructor
    · intro h
      cases h
    · rintro ⟨i, hd, _⟩
      cases hd
  · intro i h
    cases h
  · intro i j hi _
    cases hi

/-- `fastPathHit` preserves the invariant. -/
theorem inv_fastPathHit {n : Nat} {c : Config n} (hi : Inv c) (i : Fin n)
    (hpc : (c.procs i).pc = .start) (hdest : c.dest = true) :
    Inv { c with procs := Function.update c.procs i ⟨.done, (c.procs i).did⟩ } := by
  obtain ⟨I1, I2, I3, I4, I5, I6, I7, I8⟩ := hi
  constructor
  · intro j hj
    simp only [] at hj ⊢
    by_cases hji : j = i
    · subst hji
      rw [Function.update_same] at hj
      simp at hj
    · rw [Function.update_noteq hji] at hj
      exact I1 j hj
  · intro j hj
    simp only [] at hj ⊢
    have h2 := I2 j hj
    have hji : j ≠ i := by
      intro e
      subst e
      rw [hpc] at h2
      rcases h2 with h | h | h <;> cases h
    rw [Function.update_noteq hji]
    exact h2
  · intro j
    simp only []
    by_cases hji : j = i
    · subst hji
      rw [Function.update_same]
      constructor
      · intro ht
        have h2 := (I3 j).mp ht
        rw [hpc] at h2
        cases h2
      · intro hd
        simp at hd
    · rw [Function.update_noteq hji]
      exact I3 j
  · intro j hdid
    simp only [] at hdid ⊢
    by_cases hji : j = i
    · subst hji
      rw [Function.update_same]
      simp
    · rw [Function.update_noteq hji] at hdid ⊢
      exact I4 j hdid
  · intro j hj
    simp only [] at hj ⊢
    by_cases hji : j = i
    · subst hji
      rw [Function.update_same] at hj
      simp at hj
    · rw [Function.update_noteq hji] at hj ⊢
      exact I5 j hj
  · simp only []
    constructor
    · intro _
      obtain ⟨j, hdj, hpcj⟩ := I6.mp hdest
      have hji : j ≠ i := by
        intro e
        subst e
        rw [hpc] at hpcj
        rcases hpcj with h | h | h <;> cases h
      refine ⟨j, ?_, ?_⟩
      · rw [Function.update_noteq hji]
        exact hdj
      · rw [Function.update_noteq hji]
        exact hpcj
    · intro _
      exact hdest
  · intro j hj
    simp only [] at hj ⊢
    by_cases hji : j = i
    · subst hji
      right
      exact hdest
    · rw [Function.update_noteq hji] at hj
      rcases I7 j hj with h | h
      · left
        rwa [Function.update_noteq hji]
      · right
        exact h
  · intro j k hdj hdk
    simp only [] at hdj hdk
    apply I8 j k
    · by_cases hji : j = i
      · subst hji
        rwa [Function.update_same] at hdj
      · rwa [Function.update_noteq hji] at hdj
    · by_cases hki : k = i
      · subst hki
        rwa [Function.update_same] at hdk
      · rwa [Function.update_noteq hki] at hdk

/-- `fastPathMiss` preserves the invariant. -/
theorem inv_fastPathMiss {n : Nat} {c : Config n} (hi : Inv c) (i : Fin n)
    (hpc : (c.procs i).pc = .start) (hdest : c.dest = false) :
    Inv { c with procs := Function.update c.procs i ⟨.waiting, (c.procs i).did⟩ } := by
  obtain ⟨I1, I2, I3, I4, I5, I6, I7, I8⟩ := hi
  constructor
  · intro j hj
    simp only [] at hj ⊢
    by_cases hji : j = i
    · subst hji
      rw [Function.update_same] at hj
      simp at hj
    · rw [Function.update_noteq hji] at hj
      exact I1 j hj
  · intro j hj
    simp only [] at hj ⊢
    have h2 := I2 j hj
    have hji : j ≠ i := by
      intro e
      subst e
      rw [hpc] at h2
      rcases h2 with h | h | h <;> cases h
    rw [Function.update_noteq hji]
    exact h2
  · intro j
    simp only []
    by_cases hji : j = i
    · subst hji
      rw [Function.update_same]
      constructor
      · intro ht
        have h2 := (I3 j).mp ht
        rw [hpc] at h2
        cases h2
      · intro hd
        simp at hd
    · rw [Function.update_noteq hji]
      exact I3 j
  · intro j hdid
    simp only [] at hdid ⊢
    by_cases hji : j = i
    · subst hji
      rw [Function.update_same] at hdid
      have h2 := I4 j hdid
      rw [hpc] at h2
      rcases h2 with h | h | h | h <;> cases h
    · rw [Function.update_noteq hji] at hdid ⊢
      exact I4 j hdid
  · intro j hj
    simp only [] at hj ⊢
    by_cases hji : j = i
    · subst hji
      rw [Function.update_same] at hj
      simp at hj
    · rw [Function.update_noteq hji] at hj ⊢
      exact I5 j hj
  · simp only []
    constructor
    · intro h
      rw [hdest] at h
      cases h
    · rintro ⟨j, hdj, hpcj⟩
      by_cases hji : j = i
      · subst hji
        rw [Function.update_same] at hpcj
        rcases hpcj with h | h | h <;> cases h
      · rw [Function.update_noteq hji] at hdj hpcj
        have h2 := I6.mpr ⟨j, hdj, hpcj⟩
        rw [hdest] at h2
        cases h2
  · intro j hj
    simp only [] at hj ⊢
    by_cases hji : j = i
    · subst hji
      rw [Function.update_same] at hj
      simp at hj
    · rw [Function.update_noteq hji] at hj
      rcases I7 j hj with h | h
      · left
        rwa [Function.update_noteq hji]
      · right
        exact h
  · intro j k hdj hdk
    simp only [] at hdj hdk
    apply I8 j k
    · by_cases hji : j = i
      · subst hji
        rwa [Function.update_same] at hdj
      · rwa [Function.update_noteq hji] at hdj
    · by_cases hki : k = i
      · subst hki
        rwa [Function.update_same] at hdk
      · rwa [Function.update_noteq hki] at hdk

/-- `acquire` preserves the invariant. -/
theorem inv_acquire {n : Nat} {c : Config n} (hi : Inv c) (i : Fin n)
    (hpc : (c.procs i).pc = .waiting) (hold : c.holder = none) :
    Inv { c with procs := Function.update c.procs i ⟨.locked, (c.procs i).did⟩,
                 holder := some i } := by
  obtain ⟨I1, I2, I3, I4, I5, I6, I7, I8⟩ := hi
  constructor
  · intro j hj
    simp only [] at hj ⊢
    by_cases hji : j = i
    · subst hji
      rfl
    · rw [Function.update_noteq hji] at hj
      have h2 := I1 j hj
      rw [hold] at h2
      cases h2
  · intro j hj
    simp only [] at hj ⊢
    injection hj with hj2
    subst hj2
    rw [Function.update_same]
    left
    rfl
  · intro j
    simp only []
    by_cases hji : j = i
    · subst hji
      rw [Function.update_same]
      constructor
      · intro ht
        have h2 := (I3 j).mp ht
        rw [hpc] at h2
        cases h2
      · intro hd
        simp at hd
    · rw [Function.update_noteq hji]
      exact I3 j
  · intro j hdid
    simp only [] at hdid ⊢
    by_cases hji : j = i
    · subst hji
      rw [Function.update_same] at hdid
      have h2 := I4 j hdid
      rw [hpc] at h2
      rcases h2 with h | h | h | h <;> cases h
    · rw [Function.update_noteq hji] at hdid ⊢
      exact I4 j hdid
  · intro j hj
    simp only [] at hj ⊢
    by_cases hji : j = i
    · subst hji
      rw [Function.update_same] at hj
      simp at hj
    · rw [Function.update_noteq hji] at hj ⊢
      exact I5 j hj
  · simp only []
    constructor
    · intro h
      obtain ⟨j, hdj, hpcj⟩ := I6.mp h
      have hji : j ≠ i := by
        intro e
        subst e
        rw [hpc] at hpcj
        rcases hpcj with h2 | h2 | h2 <;> cases h2
      refine ⟨j, ?_, ?_⟩
      · rw [Function.update_noteq hji]
        exact hdj
      · rw [Function.update_noteq hji]
        exact hpcj
    · rintro ⟨j, hdj, hpcj⟩
      by_cases hji : j = i
      · subst hji
        rw [Function.update_same] at hpcj
        rcases hpcj with h | h | h <;> cases h
      · rw [Function.update_noteq hji] at hdj hpcj
        exact I6.mpr ⟨j, hdj, hpcj⟩
  · intro j hj
    simp only [] at hj ⊢
    by_cases hji : j = i
    · subst hji
      rw [Function.update_same] at hj
      simp at hj
    · rw [Function.update_noteq hji] at hj
      rcases I7 j hj with h | h
      · left
        rwa [Function.update_noteq hji]
      · right
        exact h
  · intro j k hdj hdk
    simp only [] at hdj hdk
    apply I8 j k
    · by_cases hji : j = i
      · subst hji
        rwa [Function.update_same] at hdj
      · rwa [Function.update_noteq hji] at hdj
    · by_cases hki : k = i
      · subst hki
        rwa [Function.update_same] at hdk
      · rwa [Function.update_noteq hki] at hdk

/-- `recheckHit` preserves the invariant. -/
theorem inv_recheckHit {n : Nat} {c : Config n} (hi : Inv c) (i : Fin n)
    (hpc : (c.procs i).pc = .locked) (hold : c.holder = some i) (hdest : c.dest = true) :
    Inv { c with procs := Function.update c.procs i ⟨.done, (c.procs i).did⟩,
                 holder := none } := by
  obtain ⟨I1, I2, I3, I4, I5, I6, I7, I8⟩ := hi
  constructor
  · intro j hj
    simp only [] at hj ⊢
    by_cases hji : j = i
    · subst hji
      rw [Function.update_same] at hj
      simp at hj
    · rw [Function.update_noteq hji] at hj
      have h2 := I1 j hj
      rw [hold] at h2
      injection h2 with h3
      exact absurd h3.symm hji
  · intro j hj
    simp only [] at hj
    cases hj
  · intro j
    simp only []
    by_cases hji : j = i
    · subst hji
      rw [Function.update_same]
      constructor
      · intro ht
        have h2 := (I3 j).mp ht
        rw [hpc] at h2
        cases h2
      · intro hd
        simp at hd
    · rw [Function.update_noteq hji]
      exact I3 j
  · intro j hdid
    simp only [] at hdid ⊢
    by_cases hji : j = i
    · subst hji
      rw [Function.update_same]
      simp
    · rw [Function.update_noteq hji] at hdid ⊢
      exact I4 j hdid
  · intro j hj
    simp only [] at hj ⊢
    by_cases hji : j = i
    · subst hji
      rw [Function.update_same] at hj
      simp at hj
    · rw [Function.update_noteq hji] at hj ⊢
      exact I5 j hj
  · simp only []
    constructor
    · intro _
      obtain ⟨j, hdj, hpcj⟩ := I6.mp hdest
      have hji : j ≠ i := by
        intro e
        subst e
        rw [hpc] at hpcj
        rcases hpcj with h | h | h <;> cases h
      refine ⟨j, ?_, ?_⟩
      · rw [Function.update_noteq hji]
        exact hdj
      · rw [Function.update_noteq hji]
        exact hpcj
    · intro _
      exact hdest
  · intro j hj
    simp only [] at hj ⊢
    by_cases hji : j = i
    · subst hji
      right
      exact hdest
    · rw [Function.update_noteq hji] at hj
      rcases I7 j hj with h | h
      · left
        rwa [Function.update_noteq hji]
      · right
        exact h
  · intro j k hdj hdk
    simp only [] at hdj hdk
    apply I8 j k
    · by_cases hji : j = i
      · subst hji
        rwa [Function.update_same] at hdj
      · rwa [Function.update_noteq hji] at hdj
    · by_cases hki : k = i
      · subst hki
        rwa [Function.update_same] at hdk
      · rwa [Function.update_noteq hki] at hdk

/-- `transfer` preserves the invariant; in particular a second transfer is
impossible while a downloader exists or the binary is installed. -/
theorem inv_transfer {n : Nat} {c : Config n} (hi : Inv c) (i : Fin n)
    (hpc : (c.procs i).pc = .locked) (hold : c.holder = some i) (hdest : c.dest = false) :
    Inv { c with procs := Function.update c.procs i ⟨.downloaded, true⟩,
                 temp := Function.update c.temp i true } := by
  obtain ⟨I1, I2, I3, I4, I5, I6, I7, I8⟩ := hi
  constructor
  · intro j hj
    simp only [] at hj ⊢
    by_cases hji : j = i
    · subst hji
      exact hold
    · rw [Function.update_noteq hji] at hj
      exact I1 j hj
  · intro j hj
    simp only [] at hj ⊢
    rw [hold] at hj
    injection hj with h3
    subst h3
    rw [Function.update_same]
    right
    left
    rfl
  · intro j
    simp only []
    by_cases hji : j = i
    · subst hji
      constructor
      · intro _
        rw [Function.update_same]
      · intro _
        rw [Function.update_same]
    · rw [Function.update_noteq hji, Function.update_noteq hji]
      exact I3 j
  · intro j hdid
    simp only [] at hdid ⊢
    by_cases hji : j = i
    · subst hji
      rw [Function.update_same]
      simp
    · rw [Function.update_noteq hji] at hdid ⊢
      exact I4 j hdid
  · intro j hj
    simp only [] at hj ⊢
    by_cases hji : j = i
    · subst hji
      rw [Function.update_same]
    · rw [Function.update_noteq hji] at hj ⊢
      exact I5 j hj
  · simp only []
    constructor
    · intro h
      rw [hdest] at h
      cases h
    · rintro ⟨j, hdj, hpcj⟩
      by_cases hji : j = i
      · subst hji
        rw [Function.update_same] at hpcj
        rcases hpcj with h | h | h <;> cases h
      · rw [Function.update_noteq hji] at hdj hpcj
        have h2 := I6.mpr ⟨j, hdj, hpcj⟩
        rw [hdest] at h2
        cases h2
  · intro j hj
    simp only [] at hj ⊢
    by_cases hji : j = i
    · subst hji
      rw [Function.update_same] at hj
      simp at hj
    · rw [Function.update_noteq hji] at hj
      rcases I7 j hj with h | h
      · left
        rwa [Function.update_noteq hji]
      · rw [hdest] at h
        cases h
  · intro j k hdj hdk
    simp only [] at hdj hdk
    by_cases hji : j = i
    · by_cases hki : k = i
      · exact hji.trans hki.symm
      · rw [Function.update_noteq hki] at hdk
        rcases I4 k hdk with h | h | h | h
        · have h2 := I1 k (Or.inr (Or.inl h))
          rw [hold] at h2
          injection h2 with h3
          exact absurd h3.symm hki
        · have h2 := I1 k (Or.inr (Or.inr h))
          rw [hold] at h2
          injection h2 with h3
          exact absurd h3.symm hki
        · have h2 := I6.mpr ⟨k, hdk, Or.inr (Or.inl h)⟩
          rw [hdest] at h2
          cases h2
        · have h2 := I6.mpr ⟨k, hdk, Or.inr (Or.inr h)⟩
          rw [hdest] at h2
          cases h2
    · rw [Function.update_noteq hji] at hdj
      by_cases hki : k = i
      · rcases I4 j hdj with h | h | h | h
        · have h2 := I1 j (Or.inr (Or.inl h))
          rw [hold] at h2
          injection h2 with h3
          exact absurd h3.symm hji
        · have h2 := I1 j (Or.inr (Or.inr h))
          rw [hold] at h2
          injection h2 with h3
          exact absurd h3.symm hji
        · have h2 := I6.mpr ⟨j, hdj, Or.inr (Or.inl h)⟩
          rw [hdest] at h2
          cases h2
        · have h2 := I6.mpr ⟨j, hdj, Or.inr (Or.inr h)⟩
          rw [hdest] at h2
          cases h2
      · rw [Function.update_noteq hki] at hdk
        exact I8 j k hdj hdk

/-- `rename` preserves the invariant. -/
theorem inv_rename {n : Nat} {c : Config n} (hi : Inv c) (i : Fin n)
    (hpc : (c.procs i).pc = .downloaded) (hold : c.holder = some i) :
    Inv { c with procs := Function.update c.procs i ⟨.renamed, (c.procs i).did⟩,
                 temp := Function.update c.temp i false,
                 dest := true } := by
  obtain ⟨I1, I2, I3, I4, I5, I6, I7, I8⟩ := hi
  constructor
  · intro j hj
    simp only [] at hj ⊢
    by_cases hji : j = i
    · subst hji
      exact hold
    · rw [Function.update_noteq hji] at hj
      exact I1 j hj
  · intro j hj
    simp only [] at hj ⊢
    rw [hold] at hj
    injection hj with h3
    subst h3
    rw [Function.update_same]
    right
    right
    rfl
  · intro j
    simp only []
    by_cases hji : j = i
    · subst hji
      constructor
      · intro h
        rw [Function.update_same] at h
        cases h
      · intro hd
        rw [Function.update_same] at hd
        cases hd
    · rw [Function.update_noteq hji, Function.update_noteq hji]
      exact I3 j
  · intro j hdid
    simp only [] at hdid ⊢
    by_cases hji : j = i
    · subst hji
      rw [Function.update_same]
      simp
    · rw [Function.update_noteq hji] at hdid ⊢
      exact I4 j hdid
  · intro j hj
    simp only [] at hj ⊢
    by_cases hji : j = i
    · subst hji
      rw [Function.update_same]
      exact I5 j (Or.inl hpc)
    · rw [Function.update_noteq hji] at hj ⊢
      exact I5 j hj
  · simp only []
    constructor
    · intro _
      refine ⟨i, ?_, ?_⟩
      · rw [Function.update_same]
        exact I5 i (Or.inl hpc)
      · rw [Function.update_same]
        left
        rfl
    · intro _
      trivial
  · intro j _
    right
    rfl
  · intro j k hdj hdk
    simp only [] at hdj hdk
    apply I8 j k
    · by_cases hji : j = i
      · subst hji
        rwa [Function.update_same] at hdj
      · rwa [Function.update_noteq hji] at hdj
    · by_cases hki : k = i
      · subst hki
        rwa [Function.update_same] at hdk
      · rwa [Function.update_noteq hki] at hdk

/-- `release` preserves the invariant. -/
theorem inv_release {n : Nat} {c : Config n} (hi : Inv c) (i : Fin n)
    (hpc : (c.procs i).pc = .renamed) (hold : c.holder = some i) :
    Inv { c with procs := Function.update c.procs i ⟨.postlock, (c.procs i).did⟩,
                 holder := none } := by
  obtain ⟨I1, I2, I3, I4, I5, I6, I7, I8⟩ := hi
  constructor
  · intro j hj
    simp only [] at hj ⊢
    by_cases hji : j = i
    · subst hji
      rw [Function.update_same] at hj
      simp at hj
    · rw [Function.update_noteq hji] at hj
      have h2 := I1 j hj
      rw [hold] at h2
      injection h2 with h3
      exact absurd h3.symm hji
  · intro j hj
    simp only [] at hj
    cases hj
  · intro j
    simp only []
    by_cases hji : j = i
    · subst hji
      rw [Function.update_same]
      constructor
      · intro ht
        have h2 := (I3 j).mp ht
        rw [hpc] at h2
        cases h2
      · intro hd
        simp at hd
    · rw [Function.update_noteq hji]
      exact I3 j
  · intro j hdid
    simp only [] at hdid ⊢
    by_cases hji : j = i
    · subst hji
      rw [Function.update_same]
      simp
    · rw [Function.update_noteq hji] at hdid ⊢
      exact I4 j hdid
  · intro j hj
    simp only [] at hj ⊢
    by_cases hji : j = i
    · subst hji
      rw [Function.update_same]
      exact I5 j (Or.inr (Or.inl hpc))
    · rw [Function.update_noteq hji] at hj ⊢
      exact I5 j hj
  · simp only []
    constructor
    · intro h
      obtain ⟨j, hdj, hpcj⟩ := I6.mp h
      by_cases hji : j = i
      · subst hji
        refine ⟨j, ?_, ?_⟩
        · rw [Function.update_same]
          exact hdj
        · rw [Function.update_same]
          right
          left
          rfl
      · refine ⟨j, ?_, ?_⟩
        · rw [Function.update_noteq hji]
          exact hdj
        · rw [Function.update_noteq hji]
          exact hpcj
    · rintro ⟨j, hdj, hpcj⟩
      by_cases hji : j = i
      · subst hji
        rw [Function.update_same] at hdj
        exact I6.mpr ⟨j, hdj, Or.inl hpc⟩
      · rw [Function.update_noteq hji] at hdj hpcj
        exact I6.mpr ⟨j, hdj, hpcj⟩
  · intro j hj
    simp only [] at hj ⊢
    by_cases hji : j = i
    · subst hji
      rw [Function.update_same] at hj
      simp at hj
    · rw [Function.update_noteq hji] at hj
      rcases I7 j hj with h | h
      · left
        rwa [Function.update_noteq hji]
      · right
        exact h
  · intro j k hdj hdk
    simp only [] at hdj hdk
    apply I8 j k
    · by_cases hji : j = i
      · subst hji
        rwa [Function.update_same] at hdj
      · rwa [Function.update_noteq hji] at hdj
    · by_cases hki : k = i
      · subst hki
        rwa [Function.update_same] at hdk
      · rwa [Function.update_noteq hki] at hdk

/-- `unlinkLock` preserves the invariant. -/
theorem inv_unlinkLock {n : Nat} {c : Config n} (hi : Inv c) (i : Fin n)
    (hpc : (c.procs i).pc = .postlock) :
    Inv { c with procs := Function.update c.procs i ⟨.done, (c.procs i).did⟩ } := by
  obtain ⟨I1, I2, I3, I4, I5, I6, I7, I8⟩ := hi
  constructor
  · intro j hj
    simp only [] at hj ⊢
    by_cases hji : j = i
    · subst hji
      rw [Function.update_same] at hj
      simp at hj
    · rw [Function.update_noteq hji] at hj
      exact I1 j hj
  · intro j hj
    simp only [] at hj ⊢
    have h2 := I2 j hj
    have hji : j ≠ i := by
      intro e
      subst e
      rw [hpc] at h2
      rcases h2 with h | h | h <;> cases h
    rw [Function.update_noteq hji]
    exact h2
  · intro j
    simp only []
    by_cases hji : j = i
    · subst hji
      rw [Function.update_same]
      constructor
      · intro ht
        have h2 := (I3 j).mp ht
        rw [hpc] at h2
        cases h2
      · intro hd
        simp at hd
    · rw [Function.update_noteq hji]
      exact I3 j
  · intro j hdid
    simp only [] at hdid ⊢
    by_cases hji : j = i
    · subst hji
      rw [Function.update_same]
      simp
    · rw [Function.update_noteq hji] at hdid ⊢
      exact I4 j hdid
  · intro j hj
    simp only [] at hj ⊢
    by_cases hji : j = i
    · subst hji
      rw [Function.update_same] at hj
      simp at hj
    · rw [Function.update_noteq hji] at hj ⊢
      exact I5 j hj
  · simp only []
    constructor
    · intro h
      obtain ⟨j, hdj, hpcj⟩ := I6.mp h
      by_cases hji : j = i
      · subst hji
        refine ⟨j, ?_, ?_⟩
        · rw [Function.update_same]
          exact hdj
        · rw [Function.update_same]
          right
          right
          rfl
      · refine ⟨j, ?_, ?_⟩
        · rw [Function.update_noteq hji]
          exact hdj
        · rw [Function.update_noteq hji]
          exact hpcj
    · rintro ⟨j, hdj, hpcj⟩
      by_cases hji : j = i
      · subst hji
        rw [Function.update_same] at hdj
        exact I6.mpr ⟨j, hdj, Or.inr (Or.inl hpc)⟩
      · rw [Function.update_noteq hji] at hdj hpcj
        exact I6.mpr ⟨j, hdj, hpcj⟩
  · intro j hj
    simp only [] at hj ⊢
    by_cases hji : j = i
    · subst hji
      left
      rw [Function.update_same]
      exact I5 j (Or.inr (Or.inr hpc))
    · rw [Function.update_noteq hji] at hj
      rcases I7 j hj with h | h
      · left
        rwa [Function.update_noteq hji]
      · right
        exact h
  · intro j k hdj hdk
    simp only [] at hdj hdk
    apply I8 j k
    · by_cases hji : j = i
      · subst hji
        rwa [Function.update_same] at hdj
      · rwa [Function.update_noteq hji] at hdj
    · by_cases hki : k = i
      · subst hki
        rwa [Function.update_same] at hdk
      · rwa [Function.update_noteq hki] at hdk

/-- Every step preserves the invariant. -/
theorem inv_step {n : Nat} {c c2 : Config n} (hi : Inv c) (hs : Step c c2) : Inv c2 := by
  cases hs with
  | fastPathHit i hpc hdest => exact inv_fastPathHit hi i hpc hdest
  | fastPathMiss i hpc hdest => exact inv_fastPathMiss hi i hpc hdest
  | acquire i hpc hold => exact inv_acquire hi i hpc hold
  | recheckHit i hpc hold hdest => exact inv_recheckHit hi i hpc hold hdest
  | transfer i hpc hold hdest => exact inv_transfer hi i hpc hold hdest
  | rename i hpc hold => exact inv_rename hi i hpc hold
  | release i hpc hold => exact inv_release hi i hpc hold
  | unlinkLock i hpc => exact inv_unlinkLock hi i hpc

/-- Every reachable configuration satisfies the invariant. -/
theorem inv_reachable {n : Nat} {c : Config n} (h : Reachable c) : Inv c := by
  induction h with
  | refl => exact inv_init n
  | tail _ hstep ih => exact inv_step ih hstep

/-- In any terminal reachable configuration the binary is installed, no temp
files remain, and exactly one process performed the transfer. -/
theorem race_terminal_props {n : Nat} (hn : 1 ≤ n) {c : Config n} (hr : Reachable c)
    (ht : Terminal c) :
    c.dest = true ∧ (∀ i, c.temp i = false) ∧ transferCount c = 1 := by
  have I := inv_reachable hr
  have hdest : c.dest = true := by
    have i0 : Fin n := ⟨0, by omega⟩
    rcases I.done_dest i0 (ht i0) with h | h
    · exact I.dest_iff.mpr ⟨i0, h, Or.inr (Or.inr (ht i0))⟩
    · exact h
  refine ⟨hdest, ?_, ?_⟩
  · intro i
    by_cases hti : c.temp i = true
    · have h2 := (I.temp_iff i).mp hti
      rw [ht i] at h2
      cases h2
    · revert hti
      cases c.temp i <;> simp
  · obtain ⟨j, hdj, _⟩ := I.dest_iff.mp hdest
    have hset : (Finset.univ.filter fun i => (c.procs i).did = true) = {j} := by
      apply Finset.ext
      intro k
      simp only [Finset.mem_filter, Finset.mem_univ, true_and, Finset.mem_singleton]
      constructor
      · intro hk
        exact I.did_unique k j hk hdj
      · intro hk
        subst hk
        exact hdj
    rw [transferCount, hset, Finset.card_singleton]

/-- No reachable non-terminal configuration is stuck: some process can always
move, so the contention episode cannot deadlock. -/
theorem race_progress {n : Nat} {c : Config n} (hr : Reachable c) (hnt : ¬ Terminal c) :
    ∃ c2, Step c c2 := by
  have I := inv_reachable hr
  obtain ⟨i, hi⟩ := not_forall.mp hnt
  cases hpc : (c.procs i).pc with
  | start =>
    cases hd : c.dest with
    | true => exact ⟨_, Step.fastPathHit c i hpc hd⟩
    | false => exact ⟨_, Step.fastPathMiss c i hpc hd⟩
  | waiting =>
    cases hh : c.holder with
    | none => exact ⟨_, Step.acquire c i hpc hh⟩
    | some j =>
      rcases I.holder_cs j hh with h | h | h
      · cases hd : c.dest with
        | true => exact ⟨_, Step.recheckHit c j h hh hd⟩
        | false => exact ⟨_, Step.transfer c j h hh hd⟩
      · exact ⟨_, Step.rename c j h hh⟩
      · exact ⟨_, Step.release c j h hh⟩
  | locked =>
    have hh := I.cs_holder i (Or.inl hpc)
    cases hd : c.dest with
    | true => exact ⟨_, Step.recheckHit c i hpc hh hd⟩
    | false => exact ⟨_, Step.transfer c i hpc hh hd⟩
  | downloaded =>
    exact ⟨_, Step.rename c i hpc (I.cs_holder i (Or.inr (Or.inl hpc)))⟩
  | renamed =>
    exact ⟨_, Step.release c i hpc (I.cs_holder i (Or.inr (Or.inr hpc)))⟩
  | postlock => exact ⟨_, Step.unlinkLock c i hpc⟩
  | done => exact absurd hpc hi

/-- C1: for N ≥ 2 provisioning calls started simultaneously against an empty
cache for the same target, every terminal reachable configuration of the
interleaved system has exactly one process that performed the network transfer
and verification, the single shared final binary installed, and zero temp
files left — so all N calls returned with that same final path — and no
reachable intermediate state is stuck. -/
theorem race_exactly_one_download (n : Nat) (hn : 2 ≤ n) :
    (∀ c : Config n, Reachable c → Terminal c →
      c.dest = true ∧ (∀ i, c.temp i = false) ∧ transferCount c = 1) ∧
    (∀ c : Config n, Reachable c → ¬ Terminal c → ∃ c2, Step c c2) := by
  constructor
  · intro c hr ht
    exact race_terminal_props (by omega) hr ht
  · intro c hr hnt
    exact race_progress hr hnt

/-- Witness for C1: an explicit two-process interleaving — process 0 misses
the fast path, acquires the lock, downloads, renames, releases and unlinks;
process 1 misses the fast path, then blocks on the lock and finally sees the
re-check succeed — ends in `raceFinal` with one transfer and no temp files. -/
theorem race_exactly_one_download_witness :
    raceFinal.dest = true ∧ raceFinal.temp 0 = false ∧ raceFinal.temp 1 = false ∧
    transferCount raceFinal = 1 := by
  have hmain : raceFinal.dest = true ∧ (∀ i, raceFinal.temp i = false) ∧
      transferCount raceFinal = 1 := by
    apply (race_exactly_one_download 2 (by omega)).1 raceFinal
    · have h1 := Relation.ReflTransGen.tail (Relation.ReflTransGen.refl)
        (Step.fastPathMiss (init 2) 0 rfl rfl)
      have h2 := Relation.ReflTransGen.tail h1
        (Step.fastPathMiss _ 1 (by decide) (by decide))
      have h3 := Relation.ReflTransGen.tail h2
        (Step.acquire _ 0 (by decide) (by decide))
      have h4 := Relation.ReflTransGen.tail h3
        (Step.transfer _ 0 (by decide) (by decide) (by decide))
      have h5 := Relation.ReflTransGen.tail h4
        (Step.rename _ 0 (by decide) (by decide))
      have h6 := Relation.ReflTransGen.tail h5
        (Step.release _ 0 (by decide) (by decide))
      have h7 := Relation.ReflTransGen.tail h6 (Step.unlinkLock _ 0 (by decide))
      have h8 := Relation.ReflTransGen.tail h7
        (Step.acquire _ 1 (by decide) (by decide))
      have h9 := Relation.ReflTransGen.tail h8
        (Step.recheckHit _ 1 (by decide) (by decide) (by decide))
      convert h9 using 1
      refine Config.ext ?_ ?_ ?_ ?_
      · funext i
        fin_cases i <;> decide
      · decide
      · decide
      · funext i
        fin_cases i <;> decide
    · intro i
      fin_cases i <;> rfl
  exact ⟨hmain.1, hmain.2.1 0, hmain.2.1 1, hmain.2.2⟩

end Race

end BinaryManager
